import Mathlib

/-!
# matrix-topo.cc: topology construction, input readers, flow pairing and monitors

A shallow embedding of `src/matrix-topo.cc`.  The program reads an adjacency
matrix and a coordinate file, creates one point-to-point link per set matrix
entry, places the nodes, schedules randomly paired UDP flows and samples queue
lengths and packet drops.

Conventions of the embedding.

* `std::vector` values are lists; `v[i]` is a list lookup.
* The simulator library (node and device creation, address assignment, event
  scheduling) is not part of the program.  Its calls are taken to succeed and
  are represented only by the data the program hands to them or reads back
  from them, except where the library decides what the program does next:
  `Names::Add` ends the program on a name that is already taken
  (`registerName`) and `MobilityHelper::Install` sets the node positions from
  the allocator (`mobilityInstall`).
* Looking up a node or a vector element that does not exist ends the run
  (`none`, or an error of the set-up).
* Counters and indices (`uint32_t`, `int`, `size_t`) are natural numbers.  The
  sizes involved (nodes, links, lines of a file, packets dropped in one run)
  stay far below `2^31`, so no wrap-around is modelled.
* Coordinates are the finite `double` values read from the file.  The program
  only copies and negates them, both exact, so they are rational numbers here.
-/

namespace MatrixTopo

/-! ## Link construction (`main`, "Create Links Between Nodes") -/

/-- The two point-to-point helpers a link can be installed with:
`p2p_computer_router` (10Mbps) and `p2p_router_router` (0.5Mbps). -/
inductive LinkClass where
  | computer_router
  | router_router
  deriving DecidableEq, Repr

/-- One installed link: the two node indices handed to `NodeContainer`, the
helper that installed it and the index of the /24 network assigned to it. -/
structure Link where
  i : Nat
  j : Nat
  cls : LinkClass
  subnet : Nat
  deriving DecidableEq, Repr

/-- The variables the link loop updates: the links installed so far, the counter
`linkCount` and the network the address helper `ipv4_n` will hand out next. -/
structure BuildState where
  links : List Link
  linkCount : Nat
  nextNet : Nat
  deriving DecidableEq, Repr

/-- State before the loop: `linkCount = 0`, address helper at its base network. -/
def BuildState.init : BuildState := ⟨[], 0, 0⟩

/-- The helper chosen by `if(i<computer_n) ... else ...`. -/
def linkClassOf (computer_n i : Nat) : LinkClass :=
  if i < computer_n then LinkClass.computer_router else LinkClass.router_router

/-- Body of `if (Adj_Matrix[i][j] == 1)`: install a link between node `i` and
node `j`, assign the current network, move to a new network, `linkCount++`.
The two `Names::Add` calls of lines 219-220 come before this step in
`namedAddLink`. -/
def addLink (computer_n i j : Nat) (s : BuildState) : BuildState :=
  { links := s.links ++ [⟨i, j, linkClassOf computer_n i, s.nextNet⟩]
    linkCount := s.linkCount + 1
    nextNet := s.nextNet + 1 }

/-- Inner loop `for (j = ...; j < Adj_Matrix[i].size (); j++)` over the rest of
row `i`, the next column being `j`. -/
def scanRow (computer_n i : Nat) : List Bool → Nat → BuildState → BuildState
  | [], _, s => s
  | b :: bs, j, s =>
    scanRow computer_n i bs (j + 1) (if b = true then addLink computer_n i j s else s)

/-- Outer loop `for (i = ...; i < Adj_Matrix.size (); i++)` over the remaining
rows, the next row being `i`. -/
def scanRows (computer_n : Nat) : List (List Bool) → Nat → BuildState → BuildState
  | [], _, s => s
  | r :: rs, i, s => scanRows computer_n rs (i + 1) (scanRow computer_n i r 0 s)

/-- The whole link loop of `main`, started with `linkCount = 0`, as it runs when
every device name is accepted; `namedBuildLinks` is the loop with its name
registrations. -/
def buildLinks (computer_n : Nat) (Adj_Matrix : List (List Bool)) : BuildState :=
  scanRows computer_n Adj_Matrix 0 BuildState.init

/-! ### Vocabulary of the claims about the matrix -/

/-- Entry `[i][j]` of the matrix, `false` outside of it. -/
def entry (M : List (List Bool)) (i j : Nat) : Bool :=
  (M.getD i []).getD j false

/-- An `N`×`N` matrix: `N` rows of `N` entries each. -/
def IsSquare (M : List (List Bool)) (N : Nat) : Prop :=
  M.length = N ∧ ∀ row ∈ M, row.length = N

/-- No set entry on or below the diagonal. -/
def StrictUpper (M : List (List Bool)) : Prop :=
  ∀ i j, entry M i j = true → i < j

/-- Entry `[i][j]` is set exactly when entry `[j][i]` is. -/
def IsSymmetric (M : List (List Bool)) : Prop :=
  ∀ i j, entry M i j = entry M j i

/-- Number of set entries of the matrix. -/
def countTrue (M : List (List Bool)) : Nat :=
  (M.map (fun row => row.count true)).sum

/-- Columns of the set entries of one row, in increasing order. -/
def trueCols (row : List Bool) : List Nat :=
  (List.range row.length).filter (fun j => row.getD j false)

/-- Positions of the set entries of the matrix in row-major order. -/
def trueEntries (M : List (List Bool)) : List (Nat × Nat) :=
  (List.range M.length).flatMap (fun i => (trueCols (M.getD i [])).map (Prod.mk i))

/-- Number of set entries strictly above the diagonal (the upper triangle). -/
def countUpper (M : List (List Bool)) : Nat :=
  ((trueEntries M).filter (fun p => decide (p.1 < p.2))).length

/-- Number of set entries on the diagonal. -/
def countDiag (M : List (List Bool)) : Nat :=
  ((trueEntries M).filter (fun p => decide (p.1 = p.2))).length

/-- Number of set entries strictly below the diagonal. -/
def countLower (M : List (List Bool)) : Nat :=
  ((trueEntries M).filter (fun p => decide (p.2 < p.1))).length

/-- Node indices of a link, in the order given to `NodeContainer`. -/
def Link.ends (l : Link) : Nat × Nat := (l.i, l.j)

/-! ## Flow pairing (`main`, "Setup Packet Sinks with application Udpclient") -/

/-- One `UdpClientHelper` installation: a client on node `src` (the `j` of the
loop) sends to the address of node `dst` (the `i` of the loop) from `0.1*time`
to `0.1*time+0.1`. -/
structure Flow where
  src : Nat
  dst : Nat
  time : Nat
  deriving DecidableEq, Repr

/-- The two node indices a flow reads from `i_j_generator`, in reading order. -/
def Flow.nodes (f : Flow) : List Nat := [f.dst, f.src]

/-- The vector `i_j_generator` after the first loop: `0, 1, ..., computer_n-1`. -/
def i_j_generator (computer_n : Nat) : List Nat := List.range computer_n

/-- `pair_number = rand()%(computer_n/2)+1` for the value `r` of `rand()`.  The
remainder by zero is undefined, which is `none`. -/
def pair_number (computer_n r : Nat) : Option Nat :=
  if computer_n / 2 = 0 then none else some (r % (computer_n / 2) + 1)

/-- Loop `for(int k=...;k<pair_number;k++)` with `n` iterations left, the next
one for `k`, over the shuffled vector `gen`.  Reading past the end of the vector
is `none`. -/
def pairLoop (gen : List Nat) (time : Nat) : Nat → Nat → Option (List Flow)
  | 0, _ => some []
  | n + 1, k =>
    match gen[2 * k]?, gen[2 * k + 1]? with
    | some i, some j =>
      match pairLoop gen time n (k + 1) with
      | some rest => some (⟨j, i, time⟩ :: rest)
      | none => none
    | _, _ => none

/-- Body of the loop over `time` once `random_shuffle` has left `gen` in
`i_j_generator` and `rand()` has returned `r`. -/
def intervalFlows (computer_n : Nat) (gen : List Nat) (time r : Nat) : Option (List Flow) :=
  match pair_number computer_n r with
  | some p => pairLoop gen time p 0
  | none => none

/-- The outcomes of the random calls are consistent with the program: each
`random_shuffle` leaves a permutation of what the vector held before. -/
def ShuffleChain : List Nat → List (List Nat × Nat) → Prop
  | _, [] => True
  | gen, d :: ds => d.1.Perm gen ∧ ShuffleChain d.1 ds

/-- Loop `for(uint32_t time=...;time<1200;time++)` over the remaining intervals,
given for each the shuffled vector and the value of `rand()`; the result lists
the flows of each interval. -/
def scheduleLoop (computer_n : Nat) : List (List Nat × Nat) → Nat → Option (List (List Flow))
  | [], _ => some []
  | d :: ds, time =>
    match intervalFlows computer_n d.1 time d.2 with
    | some fs =>
      match scheduleLoop computer_n ds (time + 1) with
      | some rest => some (fs :: rest)
      | none => none
    | none => none

/-! ## Monitors (`print_queue_length`, `RxDrop`) -/

/-- A node as `print_queue_length` sees it: for each device index the number of
packets in the device's queue (`GetNPackets`).  Device 0 is the loopback
device of the internet stack; its entry is never read. -/
abbrev Node := List Nat

/-- One line printed by `print_queue_length`: the simulation time and `max`. -/
structure QueueSample where
  time : Nat
  max : Nat
  deriving DecidableEq, Repr

/-- What the probe can touch: the global `nodes` container and the log. -/
structure World where
  nodes : List Node
  log : List QueueSample
  deriving DecidableEq, Repr

/-- Loop `for(int j=...;j<n_devices;j++) all_packets+=...GetNPackets()` with `n`
iterations left, the next one for device `j`. -/
def deviceLoop (devs : Node) : Nat → Nat → Nat → Nat
  | 0, _, all_packets => all_packets
  | n + 1, j, all_packets => deviceLoop devs n (j + 1) (all_packets + devs.getD j 0)

/-- Value of `all_packets` for one node after its device loop, which starts at
`j=1` with `all_packets=0` and runs while `j<n_devices`. -/
def nodePackets (devs : Node) : Nat :=
  deviceLoop devs (devs.length - 1) 1 0

/-- Loop `for(int i=...;i<80;i++)` with `n` iterations left, the next one for
node `i`.  `nodes.Get(i)` on a missing node is `none`. -/
def nodeLoop (nodes : List Node) : Nat → Nat → Nat → Option Nat
  | 0, _, max => some max
  | n + 1, i, max =>
    match nodes[i]? with
    | none => none
    | some devs =>
      nodeLoop nodes n (i + 1) (if max < nodePackets devs then nodePackets devs else max)

/-- The probe `print_queue_length` run at time `now`: nodes 0..79 are inspected
and one line is printed. -/
def print_queue_length (now : Nat) (w : World) : Option World :=
  match nodeLoop w.nodes 80 0 0 with
  | some max => some { nodes := w.nodes, log := w.log ++ [⟨now, max⟩] }
  | none => none

/-- Sum of the queued-packet counts of the devices of a node with index at least
one. -/
def queuedBeyondFirst (devs : Node) : Nat := (devs.drop 1).sum

/-- The function-local statics of `RxDrop` (`static int show_count`,
`static int n_drop_packets`). -/
structure DropState where
  show_count : Nat
  n_drop_packets : Nat
  deriving DecidableEq, Repr

/-- The statics before the first call: both zero. -/
def DropState.init : DropState := ⟨0, 0⟩

/-- One line printed by `RxDrop`: the simulation time and the two numbers whose
quotient `double(n_drop_packets)/p->GetUid()` is printed. -/
structure DropSample where
  time : Nat
  numerator : Nat
  uid : Nat
  deriving DecidableEq, Repr

/-- One call of `RxDrop` at time `now` for a packet with identifier `uid`: the
new statics and the line printed, if any. -/
def RxDrop (s : DropState) (now uid : Nat) : DropState × Option DropSample :=
  let n_drop_packets := s.n_drop_packets + 1
  let show_count := s.show_count + 1
  if show_count = 100 then (⟨0, n_drop_packets⟩, some ⟨now, n_drop_packets, uid⟩)
  else (⟨show_count, n_drop_packets⟩, none)

/-- A run of calls of `RxDrop`, each given as (time, packet identifier); the
second component records, call by call, what was printed. -/
def runDrops : DropState → List (Nat × Nat) → DropState × List (Option DropSample)
  | s, [] => (s, [])
  | s, c :: cs =>
    let r := RxDrop s c.1 c.2
    let rest := runDrops r.1 cs
    (rest.1, r.2 :: rest.2)

/-! ## Input readers (`readNxNMatrix`, `readCordinatesFile`) -/

/-- The ways a reader ends the program instead of returning. -/
inductive ReadError where
  | fileNotFound
  | columnMismatch
  | rowsNotEqualColumns
  | notTwoCoordinates
  deriving DecidableEq, Repr

/-- What the successive `getline` calls return for a file with the given
content: the pieces between line feeds.  A file with `k` line feeds yields
`k+1` pieces, the last one being what follows the last line feed (empty when
the file ends with a line feed or is empty); `eof()` holds once the last piece
has been returned. -/
def fileLines : List Char → List (List Char)
  | [] => [[]]
  | c :: cs =>
    if c = Char.ofNat 10 then [] :: fileLines cs
    else
      match fileLines cs with
      | [] => [[c]]
      | l :: ls => (c :: l) :: ls

/-- The `while (!adj_mat_file.eof ())` loop of `readNxNMatrix` over the lines
still to be read, with the current `i`, `n_nodes` and `array`.  `extract` stands
for the library loop `while (iss >> element) row.push_back (element)`. -/
def matrixLoop (extract : List Char → List Bool) :
    List (List Char) → Nat → Nat → List (List Bool) →
      Except ReadError (Nat × Nat × List (List Bool))
  | [], i, n_nodes, array => Except.ok (i, n_nodes, array)
  | line :: rest, i, n_nodes, array =>
    if line = [] then Except.ok (i, n_nodes, array)
    else
      let row := extract line
      let j := row.length
      let n_nodes := if i = 0 then j else n_nodes
      if j ≠ n_nodes then Except.error ReadError.columnMismatch
      else matrixLoop extract rest (i + 1) n_nodes (array ++ [row])

/-- `readNxNMatrix`: `file` is the content of the named file, `none` when it
cannot be opened. -/
def readNxNMatrix (extract : List Char → List Bool) (file : Option (List Char)) :
    Except ReadError (List (List Bool)) :=
  match file with
  | none => Except.error ReadError.fileNotFound
  | some content =>
    match matrixLoop extract (fileLines content) 0 0 [] with
    | Except.error e => Except.error e
    | Except.ok (i, n_nodes, array) =>
      if i ≠ n_nodes then Except.error ReadError.rowsNotEqualColumns else Except.ok array

/-- The `while (!node_coordinates_file.eof ())` loop of `readCordinatesFile` over
the lines still to be read, with the current `m` and `coord_array`.  `extract`
stands for the library loop `while (iss >> coordinate) row.push_back (coordinate)`. -/
def coordLoop (extract : List Char → List ℚ) :
    List (List Char) → Nat → List (List ℚ) → Except ReadError (List (List ℚ))
  | [], _, coord_array => Except.ok coord_array
  | line :: rest, m, coord_array =>
    if line = [] then Except.ok coord_array
    else
      let row := extract line
      let n := row.length
      if n ≠ 2 then Except.error ReadError.notTwoCoordinates
      else coordLoop extract rest (m + 1) (coord_array ++ [row])

/-- `readCordinatesFile`: `file` is the content of the named file, `none` when it
cannot be opened. -/
def readCordinatesFile (extract : List Char → List ℚ) (file : Option (List Char)) :
    Except ReadError (List (List ℚ)) :=
  match file with
  | none => Except.error ReadError.fileNotFound
  | some content => coordLoop extract (fileLines content) 0 []

/-- The lines of the file before its first empty line (or its end). -/
def linesBeforeBlank (content : List Char) : List (List Char) :=
  (fileLines content).takeWhile (fun l => decide (l ≠ []))

/-- All rows have as many entries as row 0, and there are that many rows. -/
def UniformRows (rows : List (List Bool)) : Prop :=
  (∀ r ∈ rows, r.length = (rows.headD []).length) ∧ rows.length = (rows.headD []).length

/-- Blank-separated pieces of a line. -/
def tokensAux : List Char → List Char → List (List Char)
  | cur, [] => if cur = [] then [] else [cur.reverse]
  | cur, c :: cs =>
    if c = Char.ofNat 32 ∨ c = Char.ofNat 9 then
      (if cur = [] then tokensAux [] cs else cur.reverse :: tokensAux [] cs)
    else tokensAux (c :: cur) cs

/-- The values read from the leading tokens that `readTok` accepts. -/
def extractTokens {α : Type} (readTok : List Char → Option α) : List (List Char) → List α
  | [] => []
  | t :: ts =>
    match readTok t with
    | some v => v :: extractTokens readTok ts
    | none => []

/-- Extraction of `bool` values from a row of blank-separated `0` and `1`
tokens; it stops at the first other token.  Agrees with the library loop on
such rows, and serves to run `readNxNMatrix` on concrete files. -/
def extractBits (line : List Char) : List Bool :=
  extractTokens (fun t => if t = ['0'] then some false else if t = ['1'] then some true else none)
    (tokensAux [] line)

/-- Value of a token made of decimal digits, optionally preceded by `-`. -/
def readInteger (t : List Char) : Option ℚ :=
  let digits := fun (ds : List Char) =>
    if ds ≠ [] ∧ ds.all Char.isDigit then
      some (ds.foldl (fun acc d => 10 * acc + (d.toNat - 48)) 0)
    else none
  match t with
  | '-' :: ds => (digits ds).map (fun v : Nat => -(v : ℚ))
  | ds => (digits ds).map (fun v : Nat => (v : ℚ))

/-- Extraction of `double` values from a row of blank-separated integer
numerals; it stops at the first other token.  Agrees with the library loop on
such rows, and serves to run `readCordinatesFile` on concrete files. -/
def extractIntegers (line : List Char) : List ℚ :=
  extractTokens readInteger (tokensAux [] line)

/-! ## Node positions (`main`, "Allocate Positions to Nodes") -/

/-- A position `Vector (x, y, z)`. -/
structure Vector where
  x : ℚ
  y : ℚ
  z : ℚ
  deriving DecidableEq, Repr

/-- What the position code updates: the positions added to the list allocator
`positionAlloc_n`, and for every node the position held by its
`ConstantPositionMobilityModel` (`none` while the node has no such model). -/
structure PlaceState where
  positionAlloc_n : List Vector
  position : List (Option Vector)
  deriving DecidableEq, Repr

/-- State before the loop: empty allocator, `n_nodes` nodes without a mobility
model. -/
def PlaceState.init (n_nodes : Nat) : PlaceState := ⟨[], List.replicate n_nodes none⟩

/-- Loop `for (m = ...; m < coord_array.size (); m++)` over the remaining rows,
the next one being row `m`: the row's `(x, y, 0)` is added to the allocator and
node `m` (given a mobility model if it has none) is set to `(x, -y, 0)`.
Reading a missing coordinate or a missing node is `none`. -/
def placeLoop : List (List ℚ) → Nat → PlaceState → Option PlaceState
  | [], _, s => some s
  | row :: rest, m, s =>
    match row[0]?, row[1]? with
    | some x, some y =>
      if m < s.position.length then
        placeLoop rest (m + 1)
          { positionAlloc_n := s.positionAlloc_n ++ [⟨x, y, 0⟩]
            position := s.position.set m (some ⟨x, -y, 0⟩) }
      else none
    | _, _ => none

/-- The state after the loop and before `mobility_n.Install (nodes)`, for
`n_nodes = coord_array.size ()` nodes. -/
def placeNodes (coord_array : List (List ℚ)) : Option PlaceState :=
  placeLoop coord_array 0 (PlaceState.init coord_array.length)

/-- `mobility_n.SetPositionAllocator (positionAlloc_n); mobility_n.Install (nodes)`.
The helper belongs to the simulator library: it visits the nodes of the
container in order and sets the position of each node's mobility model
(created if the node has none) to the next position of the allocator, which a
list allocator serves in insertion order, starting over at its end. -/
def mobilityInstall (s : PlaceState) : List (Option Vector) :=
  (List.range s.position.length).map
    (fun k => s.positionAlloc_n[k % s.positionAlloc_n.length]?)

/-- The positions of the nodes once the whole position block of `main` has run. -/
def allocatePositions (coord_array : List (List ℚ)) : Option (List (Option Vector)) :=
  (placeNodes coord_array).map mobilityInstall

/-! ## Dimension check and node table (`main`, lines 148-163) -/

/-- The check `if (matrixDimension != n_nodes) NS_FATAL_ERROR` with
`n_nodes = coord_array.size ()` and `matrixDimension = Adj_Matrix.size ()`; when
it passes, `n_nodes` is the number of nodes `nodes.Create (n_nodes)` makes.
`none` is the fatal error. -/
def dimensionCheck (Adj_Matrix : List (List Bool)) (coord_array : List (List ℚ)) : Option Nat :=
  let n_nodes := coord_array.length
  let matrixDimension := Adj_Matrix.length
  if matrixDimension ≠ n_nodes then none else some n_nodes

/-- The arguments of `nodes.Get` in the loop `for(int i=...;i<80;i++)` of
`print_queue_length` with `n` iterations left, the next one for node `i`. -/
def probeLookups : Nat → Nat → List Nat
  | 0, _ => []
  | n + 1, i => i :: probeLookups n (i + 1)

/-- The node indices `print_queue_length` looks up in one run. -/
def print_queue_length_lookups : List Nat := probeLookups 80 0

/-- The node indices the flow loop looks up for the flows of one interval:
`nodes.Get (i)` for the address and `nodes.Get (j)` for the client. -/
def flowLookups (fs : List Flow) : List Nat := fs.flatMap Flow.nodes

/-! ## Object names and the set-up of `main` up to the link loop (lines 148-242) -/

/-- The text `ss.str()` naming a node: `"computer"` or `"router"` followed by a
number.  The two words differ and the number is printed in decimal, so the
word and the number determine the text and the text determines them. -/
inductive NodeName where
  | computer (k : Nat)
  | router (k : Nat)
  deriving DecidableEq, Repr

/-- A name handed to `Names::Add`: a node name, or a device name
`first--second` built from two node names (`ss3`, `ss4`). -/
inductive Name where
  | node (n : NodeName)
  | device (first second : NodeName)
  deriving DecidableEq, Repr

/-- The ways the set-up ends the program instead of reaching the flows: the
fatal error of the dimension check, `nodes.Get` on an index without a node, and
`Names::Add` on a name that is already taken. -/
inductive SetupError where
  | dimensionMismatch
  | missingNode (i : Nat)
  | nameTaken (n : Name)
  deriving DecidableEq, Repr

/-- The node name written into `ss1` (for `i`) and `ss2` (for `j`) at lines
213-216, which is also the name lines 165-174 give to node `i`:
`computer<i+1>` below `computer_n`, `router<i-computer_n+1>` from there on. -/
def nodeName (computer_n i : Nat) : NodeName :=
  if i < computer_n then NodeName.computer (i + 1) else NodeName.router (i - computer_n + 1)

/-- The device name `ss1.str() << "--" << ss2.str()` for `ss1` of node `i` and
`ss2` of node `j`. -/
def deviceName (computer_n i j : Nat) : Name :=
  Name.device (nodeName computer_n i) (nodeName computer_n j)

/-- `Names::Add (name, object)` on the names registered so far.  The call belongs
to the simulator library, which ends the program when the name is already
taken.  (It also refuses an object that has a name already; the program names
every node and every device once.) -/
def registerName (names : List Name) (n : Name) : Except SetupError (List Name) :=
  if n ∈ names then Except.error (SetupError.nameTaken n) else Except.ok (names ++ [n])

/-- The link loop's variables together with the names registered so far. -/
structure NamedState where
  build : BuildState
  names : List Name
  deriving DecidableEq, Repr

/-- Body of `if (Adj_Matrix[i][j] == 1)` with its two `Names::Add` calls of
lines 219-220: `ss3` (`i--j`) for device 0, then `ss4` (`j--i`) for device 1;
when both are accepted the link is assigned its network and counted as in
`addLink`. -/
def namedAddLink (computer_n i j : Nat) (s : NamedState) : Except SetupError NamedState :=
  match registerName s.names (deviceName computer_n i j) with
  | Except.error e => Except.error e
  | Except.ok names3 =>
    match registerName names3 (deviceName computer_n j i) with
    | Except.error e => Except.error e
    | Except.ok names4 => Except.ok ⟨addLink computer_n i j s.build, names4⟩

/-- Inner loop of the link construction with the name registrations. -/
def namedScanRow (computer_n i : Nat) :
    List Bool → Nat → NamedState → Except SetupError NamedState
  | [], _, s => Except.ok s
  | b :: bs, j, s =>
    if b = true then
      match namedAddLink computer_n i j s with
      | Except.error e => Except.error e
      | Except.ok s' => namedScanRow computer_n i bs (j + 1) s'
    else namedScanRow computer_n i bs (j + 1) s

/-- Outer loop of the link construction with the name registrations. -/
def namedScanRows (computer_n : Nat) :
    List (List Bool) → Nat → NamedState → Except SetupError NamedState
  | [], _, s => Except.ok s
  | r :: rs, i, s =>
    match namedScanRow computer_n i r 0 s with
    | Except.error e => Except.error e
    | Except.ok s' => namedScanRows computer_n rs (i + 1) s'

/-- The link loop of `main` started with `linkCount = 0` and the names that are
registered when it begins. -/
def namedBuildLinks (computer_n : Nat) (names : List Name) (Adj_Matrix : List (List Bool)) :
    Except SetupError NamedState :=
  namedScanRows computer_n Adj_Matrix 0 ⟨BuildState.init, names⟩

/-- One of the two naming loops of lines 165-174 with `n` iterations left, the
next one for `i`: `Names::Add (<word><i+1>, nodes.Get (i + offset))` on a table
of `n_nodes` nodes. -/
def nameLoop (word : Nat → NodeName) (offset n_nodes : Nat) :
    Nat → Nat → List Name → Except SetupError (List Name)
  | 0, _, names => Except.ok names
  | n + 1, i, names =>
    if n_nodes ≤ i + offset then Except.error (SetupError.missingNode (i + offset))
    else
      match registerName names (Name.node (word (i + 1))) with
      | Except.error e => Except.error e
      | Except.ok names' => nameLoop word offset n_nodes n (i + 1) names'

/-- Lines 165-174: the nodes `0..computer_n-1` are named `computer1..`, then the
nodes `computer_n..computer_n+router_n-1` are named `router1..`. -/
def nameNodes (computer_n router_n n_nodes : Nat) : Except SetupError (List Name) :=
  match nameLoop NodeName.computer 0 n_nodes computer_n 0 [] with
  | Except.error e => Except.error e
  | Except.ok names => nameLoop NodeName.router computer_n n_nodes router_n 0 names

/-- `main` from the dimension check to the end of the link loop: the check,
`nodes.Create (n_nodes)`, the naming loops and the link loop.  The result
carries the number of nodes created. -/
def setup (computer_n router_n : Nat) (Adj_Matrix : List (List Bool))
    (coord_array : List (List ℚ)) : Except SetupError (Nat × NamedState) :=
  match dimensionCheck Adj_Matrix coord_array with
  | none => Except.error SetupError.dimensionMismatch
  | some n_nodes =>
    match nameNodes computer_n router_n n_nodes with
    | Except.error e => Except.error e
    | Except.ok names =>
      match namedBuildLinks computer_n names Adj_Matrix with
      | Except.error e => Except.error e
      | Except.ok s => Except.ok (n_nodes, s)

/-- The two device names the link for entry `[i][j]` registers, in order. -/
def linkNames (computer_n : Nat) (p : Nat × Nat) : List Name :=
  [deviceName computer_n p.1 p.2, deviceName computer_n p.2 p.1]

/-- `Names::Add` for each name of a list in turn. -/
def registerAll : List Name → List Name → Except SetupError (List Name)
  | names, [] => Except.ok names
  | names, n :: rest =>
    match registerName names n with
    | Except.error e => Except.error e
    | Except.ok names' => registerAll names' rest

/-- An 80×80 matrix whose only set entries are `[0][1]` and `[1][0]`. -/
def pairMatrix : List (List Bool) :=
  (false :: true :: List.replicate 78 false)
    :: (true :: false :: List.replicate 78 false)
    :: List.replicate 78 (List.replicate 80 false)

/-- The names the rest of row `i` registers, in order, the next column being `j`. -/
def rowLinkNames (computer_n i : Nat) : List Bool → Nat → List Name
  | [], _ => []
  | b :: bs, j =>
    (if b = true then linkNames computer_n (i, j) else []) ++ rowLinkNames computer_n i bs (j + 1)

/-- The names the remaining rows register, in order, the next row being `i`. -/
def matrixLinkNames (computer_n : Nat) : List (List Bool) → Nat → List Name
  | [], _ => []
  | r :: rs, i => rowLinkNames computer_n i r 0 ++ matrixLinkNames computer_n rs (i + 1)

/-! ## Proofs -/

theorem scanRow_append (c i : Nat) (xs ys : List Bool) (j : Nat) (s : BuildState) :
    scanRow c i (xs ++ ys) j s = scanRow c i ys (j + xs.length) (scanRow c i xs j s) := by
  induction xs generalizing j s with
  | nil => simp [scanRow]
  | cons b bs ih =>
    have h := ih (j + 1) (if b = true then addLink c i j s else s)
    rw [show j + 1 + bs.length = j + (b :: bs).length by simp; omega] at h
    exact h

theorem scanRows_append (c : Nat) (xs ys : List (List Bool)) (i : Nat) (s : BuildState) :
    scanRows c (xs ++ ys) i s = scanRows c ys (i + xs.length) (scanRows c xs i s) := by
  induction xs generalizing i s with
  | nil => simp [scanRows]
  | cons r rs ih =>
    have h := ih (i + 1) (scanRow c i r 0 s)
    rw [show i + 1 + rs.length = i + (r :: rs).length by simp; omega] at h
    exact h

theorem scanRow_linkCount (c i : Nat) (bs : List Bool) (j : Nat) (s : BuildState) :
    (scanRow c i bs j s).linkCount = s.linkCount + bs.count true := by
  induction bs generalizing j s with
  | nil => simp [scanRow]
  | cons b bs ih =>
    cases b <;> simp [scanRow, ih, addLink]; omega

theorem scanRows_linkCount (c : Nat) (M : List (List Bool)) (i : Nat) (s : BuildState) :
    (scanRows c M i s).linkCount = s.linkCount + countTrue M := by
  induction M generalizing i s with
  | nil => simp [scanRows, countTrue]
  | cons r rs ih =>
    simp only [scanRows, ih, scanRow_linkCount, countTrue, List.map_cons, List.sum_cons]
    omega

theorem trueCols_append_one (bs : List Bool) (b : Bool) :
    trueCols (bs ++ [b]) = trueCols bs ++ (if b = true then [bs.length] else []) := by
  unfold trueCols
  rw [List.length_append, List.length_singleton, List.range_succ, List.filter_append]
  congr 1
  · apply List.filter_congr
    intro k hk
    rw [List.mem_range] at hk
    simp [List.getD_eq_getElem?_getD, List.getElem?_append_left hk]
  · cases b <;> simp [List.getD_eq_getElem?_getD]

theorem scanRow_ends (c i : Nat) (bs : List Bool) (s : BuildState) :
    (scanRow c i bs 0 s).links.map Link.ends
      = s.links.map Link.ends ++ (trueCols bs).map (Prod.mk i) := by
  induction bs using List.reverseRecOn generalizing s with
  | nil => simp [scanRow, trueCols]
  | append_singleton bs b ih =>
    rw [scanRow_append, trueCols_append_one]
    cases b <;> simp [scanRow, ih, addLink, Link.ends]

theorem trueEntries_append_one (M : List (List Bool)) (r : List Bool) :
    trueEntries (M ++ [r]) = trueEntries M ++ (trueCols r).map (Prod.mk M.length) := by
  unfold trueEntries
  rw [List.length_append, List.length_singleton, List.range_succ, List.flatMap_append]
  congr 1
  · apply List.flatMap_congr
    intro k hk
    rw [List.mem_range] at hk
    simp [List.getD_eq_getElem?_getD, List.getElem?_append_left hk]
  · simp [List.getD_eq_getElem?_getD]

theorem scanRows_ends (c : Nat) (M : List (List Bool)) (s : BuildState) :
    (scanRows c M 0 s).links.map Link.ends = s.links.map Link.ends ++ trueEntries M := by
  induction M using List.reverseRecOn generalizing s with
  | nil => simp [scanRows, trueEntries]
  | append_singleton M r ih =>
    rw [scanRows_append, trueEntries_append_one]
    simp [scanRows, scanRow_ends, ih]

theorem mem_trueCols (row : List Bool) (j : Nat) :
    j ∈ trueCols row ↔ row.getD j false = true := by
  unfold trueCols
  rw [List.mem_filter, List.mem_range]
  constructor
  · exact fun h => h.2
  · intro h
    refine ⟨?_, h⟩
    by_contra hlt
    rw [List.getD_eq_getElem?_getD, List.getElem?_eq_none (by omega)] at h
    simp at h

theorem mem_trueEntries (M : List (List Bool)) (i j : Nat) :
    (i, j) ∈ trueEntries M ↔ entry M i j = true := by
  unfold trueEntries entry
  rw [List.mem_flatMap]
  constructor
  · rintro ⟨a, _, ha⟩
    rw [List.mem_map] at ha
    obtain ⟨b, hb, hab⟩ := ha
    cases hab
    exact (mem_trueCols _ _).1 hb
  · intro h
    refine ⟨i, ?_, List.mem_map.2 ⟨j, (mem_trueCols _ _).2 h, rfl⟩⟩
    rw [List.mem_range]
    by_contra hlt
    rw [List.getD_eq_getElem?_getD M, List.getElem?_eq_none (by omega)] at h
    simp at h

theorem nodup_trueEntries (M : List (List Bool)) : (trueEntries M).Nodup := by
  unfold trueEntries
  rw [List.nodup_flatMap]
  constructor
  · intro i _
    apply List.Nodup.map
    · intro a b hab
      exact (Prod.mk.inj hab).2
    · exact List.Nodup.filter _ (List.nodup_range _)
  · apply List.Pairwise.imp _ (List.pairwise_lt_range M.length)
    intro a b hab p hpa hpb
    rw [List.mem_map] at hpa hpb
    obtain ⟨x, _, hx⟩ := hpa
    obtain ⟨y, _, hy⟩ := hpb
    rw [← hy] at hx
    have := (Prod.mk.inj hx).1
    omega

theorem count_eq_one_of_nodup {α : Type} [BEq α] [LawfulBEq α] {a : α} {l : List α}
    (hn : l.Nodup) (hm : a ∈ l) : l.count a = 1 := by
  induction l with
  | nil => simp at hm
  | cons x xs ih =>
    rw [List.nodup_cons] at hn
    rw [List.count_cons]
    rcases List.mem_cons.1 hm with h | h
    · subst h
      simp [List.count_eq_zero_of_not_mem hn.1]
    · have hne : x ≠ a := fun hxa => hn.1 (hxa ▸ h)
      simp [ih hn.2 h, hne]

theorem length_trueCols (row : List Bool) : (trueCols row).length = row.count true := by
  induction row using List.reverseRecOn with
  | nil => simp [trueCols]
  | append_singleton bs b ih =>
    rw [trueCols_append_one, List.length_append, ih, List.count_append]
    cases b <;> simp

theorem length_trueEntries (M : List (List Bool)) : (trueEntries M).length = countTrue M := by
  induction M using List.reverseRecOn with
  | nil => simp [trueEntries, countTrue]
  | append_singleton M r ih =>
    rw [trueEntries_append_one, List.length_append, ih, List.length_map, length_trueCols]
    simp [countTrue]

theorem entry_lt_of_square {M : List (List Bool)} {N : Nat} (h : IsSquare M N) {i j : Nat}
    (he : entry M i j = true) : i < N ∧ j < N := by
  unfold entry at he
  have hi : i < M.length := by
    by_contra hlt
    rw [List.getD_eq_getElem?_getD M, List.getElem?_eq_none (by omega)] at he
    simp at he
  rw [List.getD_eq_getElem?_getD M, List.getElem?_eq_getElem hi] at he
  simp only [Option.getD_some] at he
  have hrow : (M[i]).length = N := h.2 _ (List.getElem_mem hi)
  refine ⟨h.1 ▸ hi, ?_⟩
  by_contra hlt
  rw [List.getD_eq_getElem?_getD, List.getElem?_eq_none (by omega)] at he
  simp at he

theorem scanRow_cls (c i : Nat) (bs : List Bool) (j : Nat) (s : BuildState)
    (hs : ∀ l ∈ s.links, l.cls = linkClassOf c l.i) :
    ∀ l ∈ (scanRow c i bs j s).links, l.cls = linkClassOf c l.i := by
  induction bs generalizing j s with
  | nil => simpa [scanRow] using hs
  | cons b bs ih =>
    apply ih
    cases b
    · simpa using hs
    · intro l hl
      simp only [if_true, addLink, List.mem_append, List.mem_singleton] at hl
      rcases hl with h | h
      · exact hs l h
      · subst h
        rfl

theorem scanRows_cls (c : Nat) (M : List (List Bool)) (i : Nat) (s : BuildState)
    (hs : ∀ l ∈ s.links, l.cls = linkClassOf c l.i) :
    ∀ l ∈ (scanRows c M i s).links, l.cls = linkClassOf c l.i := by
  induction M generalizing i s with
  | nil => simpa [scanRows] using hs
  | cons r rs ih => exact ih _ _ (scanRow_cls c i r 0 s hs)

theorem buildLinks_cls (c : Nat) (M : List (List Bool)) :
    ∀ l ∈ (buildLinks c M).links, l.cls = linkClassOf c l.i :=
  scanRows_cls c M 0 _ (by simp [BuildState.init])

theorem buildLinks_entry (c : Nat) (M : List (List Bool)) :
    ∀ l ∈ (buildLinks c M).links, entry M l.i l.j = true := by
  intro l hl
  apply (mem_trueEntries M _ _).1
  have h : (buildLinks c M).links.map Link.ends = trueEntries M := by
    simp [buildLinks, scanRows_ends, BuildState.init]
  rw [← h]
  exact List.mem_map.2 ⟨l, hl, rfl⟩

/-- C1. For an N×N matrix with no set entry on or below the diagonal, the link
loop ends with `linkCount` equal to the number of set entries; the links it
installed are, in order, the set entries in row-major order, one per set entry,
each joining a lower to a higher node index below N. -/
theorem buildLinks_strictUpper (computer_n N : Nat) (M : List (List Bool))
    (hsq : IsSquare M N) (hup : StrictUpper M) :
    (buildLinks computer_n M).linkCount = countTrue M
    ∧ (buildLinks computer_n M).links.map Link.ends = trueEntries M
    ∧ (buildLinks computer_n M).links.length = countTrue M
    ∧ (∀ i j, ((buildLinks computer_n M).links.map Link.ends).count (i, j)
          = if entry M i j = true then 1 else 0)
    ∧ (∀ l ∈ (buildLinks computer_n M).links, l.i < l.j ∧ l.j < N) := by
  have hends : (buildLinks computer_n M).links.map Link.ends = trueEntries M := by
    simp [buildLinks, scanRows_ends, BuildState.init]
  refine ⟨?_, hends, ?_, ?_, ?_⟩
  · simp [buildLinks, scanRows_linkCount, BuildState.init]
  · rw [← length_trueEntries, ← hends, List.length_map]
  · intro i j
    rw [hends]
    by_cases he : entry M i j = true
    · rw [if_pos he]
      exact count_eq_one_of_nodup (nodup_trueEntries M) ((mem_trueEntries M i j).2 he)
    · rw [if_neg he]
      exact List.count_eq_zero_of_not_mem (fun h => he ((mem_trueEntries M i j).1 h))
  · intro l hl
    have hmem : (l.i, l.j) ∈ trueEntries M := by
      rw [← hends]
      exact List.mem_map.2 ⟨l, hl, rfl⟩
    have he := (mem_trueEntries M _ _).1 hmem
    exact ⟨hup _ _ he, (entry_lt_of_square hsq he).2⟩

/-- C1, at the matrix `[[0,1],[0,0]]` with one computer: one link, between node 0
and node 1, installed with the computer-router helper. -/
theorem buildLinks_strictUpper_witness :
    IsSquare [[false, true], [false, false]] 2
    ∧ StrictUpper [[false, true], [false, false]]
    ∧ (buildLinks 1 [[false, true], [false, false]]).linkCount = 1
    ∧ (buildLinks 1 [[false, true], [false, false]]).links
        = [⟨0, 1, LinkClass.computer_router, 0⟩]
    ∧ (buildLinks 1 [[false, true], [false, false]]).linkCount
        = countTrue [[false, true], [false, false]] := by
  have hsq : IsSquare [[false, true], [false, false]] 2 := by
    refine ⟨rfl, ?_⟩
    intro row hrow
    simp only [List.mem_cons, List.mem_singleton, List.not_mem_nil, or_false] at hrow
    rcases hrow with h | h <;> subst h <;> rfl
  have hup : StrictUpper [[false, true], [false, false]] := by
    intro i j h
    rcases i with _ | _ | i <;> rcases j with _ | _ | j <;> simp [entry] at h ⊢
  exact ⟨hsq, hup, by decide, by decide,
    (buildLinks_strictUpper 1 2 [[false, true], [false, false]] hsq hup).1⟩

/-- C2 as stated fails: with one computer and the single set entry `[1][0]`, the
link joins router 1 to computer 0, the lower index 0 is a computer, yet the link
is installed with the router-router helper. -/
theorem linkClass_min_counterexample :
    ¬ (∀ l ∈ (buildLinks 1 [[false, false], [true, false]]).links,
        (l.cls = LinkClass.computer_router ↔ min l.i l.j < 1)) := by
  decide

/-- C2, amended. Every link comes from a set entry `[i][j]` and is installed with
the computer-router helper exactly when the row index `i` is a computer index,
with the router-router helper otherwise.  For an entry on or above the diagonal
the row index is the lower index, so such a link is computer-router exactly when
`min i j` is a computer index, in particular whenever it touches a computer. -/
theorem linkClass_by_row (computer_n : Nat) (M : List (List Bool)) :
    ∀ l ∈ (buildLinks computer_n M).links,
      entry M l.i l.j = true
      ∧ (l.cls = LinkClass.computer_router ↔ l.i < computer_n)
      ∧ (l.cls = LinkClass.router_router ↔ computer_n ≤ l.i)
      ∧ (l.i ≤ l.j → (l.cls = LinkClass.computer_router ↔ min l.i l.j < computer_n))
      ∧ (l.i ≤ l.j → (l.i < computer_n ∨ l.j < computer_n) →
          l.cls = LinkClass.computer_router) := by
  intro l hl
  have hc := buildLinks_cls computer_n M l hl
  have h1 : l.cls = LinkClass.computer_router ↔ l.i < computer_n := by
    rw [hc]
    unfold linkClassOf
    by_cases h : l.i < computer_n <;> simp [h]
  have h2 : l.cls = LinkClass.router_router ↔ computer_n ≤ l.i := by
    rw [hc]
    unfold linkClassOf
    by_cases h : l.i < computer_n
    · simp [h]
    · simp only [h, if_false, true_iff]
      omega
  refine ⟨buildLinks_entry computer_n M l hl, h1, h2, ?_, ?_⟩
  · intro hle
    rw [h1, Nat.min_eq_left hle]
  · intro hle hor
    apply h1.2
    omega

/-- C2 amended, at the matrix `[[0,1],[0,0]]` with one computer. -/
theorem linkClass_by_row_witness :
    (⟨0, 1, LinkClass.computer_router, 0⟩ : Link)
        ∈ (buildLinks 1 [[false, true], [false, false]]).links
    ∧ entry [[false, true], [false, false]] 0 1 = true
    ∧ ((LinkClass.computer_router = LinkClass.computer_router) ↔ 0 < 1) := by
  have hm : (⟨0, 1, LinkClass.computer_router, 0⟩ : Link)
      ∈ (buildLinks 1 [[false, true], [false, false]]).links := by decide
  have h := linkClass_by_row 1 [[false, true], [false, false]] _ hm
  exact ⟨hm, h.1, h.2.1⟩

theorem length_split_diag (l : List (Nat × Nat)) :
    l.length = (l.filter (fun p => decide (p.1 < p.2))).length
      + (l.filter (fun p => decide (p.1 = p.2))).length
      + (l.filter (fun p => decide (p.2 < p.1))).length := by
  induction l with
  | nil => rfl
  | cons p ps ih =>
    rcases Nat.lt_trichotomy p.1 p.2 with h | h | h
    · have h1 : ¬ p.1 = p.2 := by omega
      have h2 : ¬ p.2 < p.1 := by omega
      simp [List.filter_cons, h, h1, h2]
      omega
    · have h1 : ¬ p.1 < p.2 := by omega
      have h2 : ¬ p.2 < p.1 := by omega
      simp [List.filter_cons, h, h1, h2]
      omega
    · have h1 : ¬ p.1 = p.2 := by omega
      have h2 : ¬ p.1 < p.2 := by omega
      simp [List.filter_cons, h, h1, h2]
      omega

theorem countLower_eq_countUpper (M : List (List Bool)) (hsym : IsSymmetric M) :
    countLower M = countUpper M := by
  unfold countLower countUpper
  rw [← List.length_map ((trueEntries M).filter (fun p => decide (p.2 < p.1))) Prod.swap]
  apply List.Perm.length_eq
  apply (List.perm_ext_iff_of_nodup ?_ ?_).2
  · rintro ⟨a, b⟩
    simp only [List.mem_map, List.mem_filter, decide_eq_true_eq, Prod.exists, Prod.swap_prod_mk,
      Prod.mk.injEq]
    constructor
    · rintro ⟨x, y, ⟨hm, hlt⟩, rfl, rfl⟩
      refine ⟨?_, hlt⟩
      rw [mem_trueEntries] at hm ⊢
      rw [← hsym]
      exact hm
    · rintro ⟨hm, hlt⟩
      refine ⟨b, a, ⟨?_, hlt⟩, rfl, rfl⟩
      rw [mem_trueEntries] at hm ⊢
      rw [hsym]
      exact hm
  · exact List.Nodup.map Prod.swap_injective (List.Nodup.filter _ (nodup_trueEntries M))
  · exact List.Nodup.filter _ (nodup_trueEntries M)

theorem countDiag_eq_zero (M : List (List Bool)) (hd : ∀ i, entry M i i = false) :
    countDiag M = 0 := by
  unfold countDiag
  rw [List.length_eq_zero, List.filter_eq_nil_iff]
  rintro ⟨a, b⟩ hm
  simp only [decide_eq_true_eq]
  intro hab
  subst hab
  rw [mem_trueEntries, hd] at hm
  exact Bool.false_ne_true hm

theorem countTrue_symmetric (M : List (List Bool)) (hsym : IsSymmetric M) :
    countTrue M = 2 * countUpper M + countDiag M := by
  have h2 := length_split_diag (trueEntries M)
  have h3 := countLower_eq_countUpper M hsym
  rw [length_trueEntries] at h2
  unfold countLower at h3
  unfold countUpper countDiag
  unfold countUpper at h3
  omega

/-! ### Flow pairing -/

theorem pairLoop_spec (gen : List Nat) (time : Nat) (n k : Nat)
    (h : 2 * k + 2 * n ≤ gen.length) :
    ∃ fs, pairLoop gen time n k = some fs ∧ fs.length = n
      ∧ fs.flatMap Flow.nodes = (gen.drop (2 * k)).take (2 * n)
      ∧ ∀ f ∈ fs, f.time = time := by
  induction n generalizing k with
  | zero => exact ⟨[], rfl, rfl, by simp, by simp⟩
  | succ n ih =>
    have h0 : 2 * k < gen.length := by omega
    have h1 : 2 * k + 1 < gen.length := by omega
    obtain ⟨rest, hrest, hlen, hflat, htime⟩ := ih (k + 1) (by omega)
    refine ⟨⟨gen[2 * k + 1], gen[2 * k], time⟩ :: rest, ?_, by simp [hlen], ?_, ?_⟩
    · simp only [pairLoop, List.getElem?_eq_getElem h0, List.getElem?_eq_getElem h1, hrest]
    · rw [List.flatMap_cons, hflat]
      have e1 : gen.drop (2 * k) = gen[2 * k] :: gen[2 * k + 1] :: gen.drop (2 * (k + 1)) := by
        rw [List.drop_eq_getElem_cons h0, List.drop_eq_getElem_cons h1]
        rfl
      rw [e1, show 2 * (n + 1) = 2 * n + 1 + 1 by omega]
      simp [Flow.nodes]
    · intro f hf
      rcases List.mem_cons.1 hf with hf | hf
      · subst hf
        rfl
      · exact htime f hf

theorem pair_number_spec (computer_n r : Nat) (hc : 2 ≤ computer_n) :
    ∃ p, pair_number computer_n r = some p ∧ 1 ≤ p ∧ p ≤ computer_n / 2
      ∧ p = r % (computer_n / 2) + 1 := by
  have hpos : 0 < computer_n / 2 := Nat.div_pos hc (by decide)
  refine ⟨r % (computer_n / 2) + 1, ?_, by omega, ?_, rfl⟩
  · unfold pair_number
    rw [if_neg (by omega)]
  · have := Nat.mod_lt r hpos
    omega

theorem two_mul_div_two_le (n : Nat) : 2 * (n / 2) ≤ n := by omega

/-- C3. With at least two computers, whatever permutation of `0..computer_n-1`
the shuffle leaves and whatever value `rand()` returns, the interval's loop
emits its flows and the node indices they use are pairwise distinct: no index
occurs twice among the sources and destinations of the interval, and no flow
has its source equal to its destination. -/
theorem intervalFlows_distinct (computer_n : Nat) (gen : List Nat) (time r : Nat)
    (hc : 2 ≤ computer_n) (hperm : gen.Perm (i_j_generator computer_n)) :
    ∃ fs, intervalFlows computer_n gen time r = some fs
      ∧ (fs.flatMap Flow.nodes).Nodup
      ∧ (∀ f ∈ fs, f.src ≠ f.dst)
      ∧ (∀ f ∈ fs, ∀ g ∈ fs, f ≠ g →
          f.src ≠ g.src ∧ f.dst ≠ g.dst ∧ f.src ≠ g.dst ∧ f.dst ≠ g.src) := by
  obtain ⟨p, hp, _, hple, _⟩ := pair_number_spec computer_n r hc
  have hlen : gen.length = computer_n := by
    rw [hperm.length_eq, i_j_generator, List.length_range]
  have hnd : gen.Nodup := hperm.nodup_iff.2 (List.nodup_range computer_n)
  have hbound := two_mul_div_two_le computer_n
  obtain ⟨fs, hfs, _, hflat, _⟩ := pairLoop_spec gen time p 0 (by omega)
  have hflatnd : (fs.flatMap Flow.nodes).Nodup := by
    rw [hflat]
    exact List.Nodup.sublist ((List.take_sublist _ _).trans (List.drop_sublist _ _)) hnd
  refine ⟨fs, by simp [intervalFlows, hp, hfs], hflatnd, ?_, ?_⟩
  · intro f hf heq
    rw [List.nodup_flatMap] at hflatnd
    have := hflatnd.1 f hf
    simp [Flow.nodes, heq] at this
  · intro f hf g hg hne
    rw [List.nodup_flatMap] at hflatnd
    have hpw := hflatnd.2
    have hsymm : Symmetric (Function.onFun List.Disjoint Flow.nodes) :=
      fun a b hab => List.Disjoint.symm hab
    have hdisj : List.Disjoint (Flow.nodes f) (Flow.nodes g) := hpw.forall hsymm hf hg hne
    simp only [Flow.nodes, List.disjoint_cons_left, List.mem_cons, List.mem_singleton,
      List.not_mem_nil, or_false, not_or, List.disjoint_nil_left, and_true] at hdisj
    obtain ⟨⟨h1, h2⟩, h3, h4⟩ := hdisj
    exact ⟨h4, h1, h3, h2⟩

/-- C3, with four computers, the shuffled vector `[2,0,3,1]` and `rand()` = 5:
two flows, node 0 to node 2 and node 1 to node 3. -/
theorem intervalFlows_distinct_witness :
    [2, 0, 3, 1].Perm (i_j_generator 4)
    ∧ intervalFlows 4 [2, 0, 3, 1] 7 5 = some [⟨0, 2, 7⟩, ⟨1, 3, 7⟩]
    ∧ ∃ fs, intervalFlows 4 [2, 0, 3, 1] 7 5 = some fs
      ∧ (fs.flatMap Flow.nodes).Nodup
      ∧ (∀ f ∈ fs, f.src ≠ f.dst)
      ∧ (∀ f ∈ fs, ∀ g ∈ fs, f ≠ g →
          f.src ≠ g.src ∧ f.dst ≠ g.dst ∧ f.src ≠ g.dst ∧ f.dst ≠ g.src) :=
  ⟨by decide, by decide, intervalFlows_distinct 4 [2, 0, 3, 1] 7 5 (by decide) (by decide)⟩

/-- C10. With at least two computers and any value `r` of `rand()`, the pair
count `r % (computer_n/2) + 1` is defined and lies between 1 and `computer_n/2`;
for every `k` below it the positions `2k` and `2k+1` are inside the shuffled
vector of length `computer_n`, so every read of the pairing loop succeeds and
the interval emits exactly that many flows, at least one. -/
theorem pair_number_in_range (computer_n r time : Nat) (gen : List Nat)
    (hc : 2 ≤ computer_n) (hlen : gen.length = computer_n) :
    ∃ p, pair_number computer_n r = some p
      ∧ p = r % (computer_n / 2) + 1
      ∧ 1 ≤ p ∧ p ≤ computer_n / 2
      ∧ (∀ k, k < p → 2 * k < computer_n ∧ 2 * k + 1 < computer_n
          ∧ gen[2 * k]?.isSome = true ∧ gen[2 * k + 1]?.isSome = true)
      ∧ ∃ fs, intervalFlows computer_n gen time r = some fs ∧ fs.length = p
          ∧ 1 ≤ fs.length := by
  obtain ⟨p, hp, h1, hple, hdef⟩ := pair_number_spec computer_n r hc
  have hbound := two_mul_div_two_le computer_n
  obtain ⟨fs, hfs, hfl, _, _⟩ := pairLoop_spec gen time p 0 (by omega)
  refine ⟨p, hp, hdef, h1, hple, ?_, fs, by simp [intervalFlows, hp, hfs], hfl, by omega⟩
  intro k hk
  have h0 : 2 * k < gen.length := by omega
  have h1 : 2 * k + 1 < gen.length := by omega
  refine ⟨by omega, by omega, ?_, ?_⟩
  · rw [List.getElem?_eq_getElem h0]
    rfl
  · rw [List.getElem?_eq_getElem h1]
    rfl

/-- C10, with five computers and `rand()` = 7: `7 % 2 + 1 = 2` pairs, read at
positions 0..3 of a vector of length 5. -/
theorem pair_number_in_range_witness :
    pair_number 5 7 = some 2
    ∧ ∃ p, pair_number 5 7 = some p
      ∧ p = 7 % (5 / 2) + 1
      ∧ 1 ≤ p ∧ p ≤ 5 / 2
      ∧ (∀ k, k < p → 2 * k < 5 ∧ 2 * k + 1 < 5
          ∧ [4, 2, 0, 3, 1][2 * k]?.isSome = true ∧ [4, 2, 0, 3, 1][2 * k + 1]?.isSome = true)
      ∧ ∃ fs, intervalFlows 5 [4, 2, 0, 3, 1] 0 7 = some fs ∧ fs.length = p
          ∧ 1 ≤ fs.length :=
  ⟨by decide, pair_number_in_range 5 7 0 [4, 2, 0, 3, 1] (by decide) rfl⟩

/-! ### Drop probe -/

theorem runDrops_append (s : DropState) (xs ys : List (Nat × Nat)) :
    runDrops s (xs ++ ys)
      = ((runDrops (runDrops s xs).1 ys).1, (runDrops s xs).2 ++ (runDrops (runDrops s xs).1 ys).2) := by
  induction xs generalizing s with
  | nil => simp [runDrops]
  | cons c cs ih => simp [runDrops, ih]

theorem runDrops_length (s : DropState) (cs : List (Nat × Nat)) :
    (runDrops s cs).2.length = cs.length := by
  induction cs generalizing s with
  | nil => rfl
  | cons c cs ih => simp [runDrops, ih]

theorem runDrops_state (cs : List (Nat × Nat)) :
    (runDrops DropState.init cs).1 = ⟨cs.length % 100, cs.length⟩ := by
  induction cs using List.reverseRecOn with
  | nil => rfl
  | append_singleton cs c ih =>
    rw [runDrops_append, ih]
    simp only [runDrops, RxDrop, List.length_append, List.length_singleton]
    by_cases h : cs.length % 100 + 1 = 100
    · rw [if_pos h]
      simp only [DropState.mk.injEq, and_true]
      omega
    · rw [if_neg h]
      simp only [DropState.mk.injEq, and_true]
      omega

theorem runDrops_trace (cs : List (Nat × Nat)) (m : Nat) (hm : m < cs.length) :
    (runDrops DropState.init cs).2[m]?
      = some (if (m + 1) % 100 = 0 then some ⟨(cs.getD m (0, 0)).1, m + 1, (cs.getD m (0, 0)).2⟩
              else none) := by
  induction cs using List.reverseRecOn with
  | nil => simp at hm
  | append_singleton cs c ih =>
    rw [runDrops_append]
    simp only [List.length_append, List.length_singleton] at hm
    by_cases hlt : m < cs.length
    · rw [List.getElem?_append_left (by rw [runDrops_length]; exact hlt), ih hlt]
      simp [List.getD_eq_getElem?_getD, List.getElem?_append_left hlt]
    · have hmeq : m = cs.length := by omega
      subst hmeq
      rw [List.getElem?_append_right (by rw [runDrops_length])]
      rw [runDrops_length, Nat.sub_self, runDrops_state]
      simp only [runDrops, RxDrop, List.getElem?_cons_zero]
      by_cases h : cs.length % 100 + 1 = 100
      · have h' : (cs.length + 1) % 100 = 0 := by omega
        simp [h, h', List.getD_eq_getElem?_getD]
      · have h' : ¬ (cs.length + 1) % 100 = 0 := by omega
        simp [h, h']

theorem runDrops_emitted (cs : List (Nat × Nat)) :
    ((runDrops DropState.init cs).2.filterMap id).length = cs.length / 100 := by
  induction cs using List.reverseRecOn with
  | nil => rfl
  | append_singleton cs c ih =>
    rw [runDrops_append]
    simp only [List.filterMap_append, List.length_append, ih, runDrops_state,
      List.length_singleton]
    simp only [runDrops, RxDrop]
    by_cases h : cs.length % 100 + 1 = 100
    · simp [h]
      omega
    · simp [h]
      omega

/-- C9. From both statics at zero, after `n` calls of `RxDrop` (for any times
and packets) `n_drop_packets` is `n` and `show_count` is `n mod 100`; call
number `m` prints a line exactly when `m` is a multiple of 100, the numerator of
that line being the cumulative count `m`; so `n / 100` lines were printed. -/
theorem RxDrop_counters (calls : List (Nat × Nat)) :
    (runDrops DropState.init calls).1.n_drop_packets = calls.length
    ∧ (runDrops DropState.init calls).1.show_count = calls.length % 100
    ∧ ((runDrops DropState.init calls).2.filterMap id).length = calls.length / 100
    ∧ (runDrops DropState.init calls).2.length = calls.length
    ∧ (∀ m, 1 ≤ m → m ≤ calls.length →
        (100 ∣ m → ∃ smp, (runDrops DropState.init calls).2[m - 1]? = some (some smp)
            ∧ smp.numerator = m ∧ smp.uid = (calls.getD (m - 1) (0, 0)).2
            ∧ ∃ k, 1 ≤ k ∧ m = 100 * k)
        ∧ (¬ 100 ∣ m → (runDrops DropState.init calls).2[m - 1]? = some none)) := by
  refine ⟨by rw [runDrops_state], by rw [runDrops_state], runDrops_emitted calls,
    runDrops_length _ calls, ?_⟩
  intro m h1 hle
  have ht := runDrops_trace calls (m - 1) (by omega)
  rw [show m - 1 + 1 = m by omega] at ht
  constructor
  · intro hdvd
    have hmod : m % 100 = 0 := Nat.mod_eq_zero_of_dvd hdvd
    rw [if_pos hmod] at ht
    refine ⟨_, ht, rfl, rfl, m / 100, ?_, ?_⟩ <;> omega
  · intro hdvd
    have hmod : ¬ m % 100 = 0 := fun h => hdvd (Nat.dvd_of_mod_eq_zero h)
    rw [if_neg hmod] at ht
    exact ht

/-! ### Queue-length probe -/

theorem deviceLoop_eq (devs : Node) (n j acc : Nat) :
    deviceLoop devs n j acc = acc + ((devs.drop j).take n).sum := by
  induction n generalizing j acc with
  | zero => simp [deviceLoop]
  | succ n ih =>
    rw [deviceLoop, ih]
    by_cases hj : j < devs.length
    · rw [List.drop_eq_getElem_cons hj, List.take_succ_cons, List.sum_cons,
        List.getD_eq_getElem?_getD, List.getElem?_eq_getElem hj, Option.getD_some]
      omega
    · rw [List.drop_eq_nil_of_le (by omega), List.drop_eq_nil_of_le (by omega),
        List.getD_eq_getElem?_getD, List.getElem?_eq_none (by omega)]
      simp

theorem nodePackets_eq (devs : Node) : nodePackets devs = queuedBeyondFirst devs := by
  unfold nodePackets queuedBeyondFirst
  rw [deviceLoop_eq, List.take_of_length_le (by simp), Nat.zero_add]

theorem nodeLoop_eq (nodes : List Node) (n i m : Nat) (h : i + n ≤ nodes.length) :
    nodeLoop nodes n i m
      = some ((((nodes.drop i).take n).map queuedBeyondFirst).foldl max m) := by
  induction n generalizing i m with
  | zero => simp [nodeLoop]
  | succ n ih =>
    have hi : i < nodes.length := by omega
    rw [nodeLoop, List.getElem?_eq_getElem hi]
    simp only []
    rw [ih (i + 1) _ (by omega), List.drop_eq_getElem_cons hi, List.take_succ_cons,
      List.map_cons, List.foldl_cons, nodePackets_eq]
    congr 2
    by_cases hlt : m < queuedBeyondFirst nodes[i]
    · rw [if_pos hlt, Nat.max_eq_right (Nat.le_of_lt hlt)]
    · rw [if_neg hlt, Nat.max_eq_left (by omega)]

theorem foldl_max_ge (l : List Nat) (m : Nat) :
    m ≤ l.foldl max m ∧ ∀ x ∈ l, x ≤ l.foldl max m := by
  induction l generalizing m with
  | nil => simp
  | cons a as ih =>
    rw [List.foldl_cons]
    obtain ⟨h1, h2⟩ := ih (max m a)
    refine ⟨le_trans (le_max_left m a) h1, ?_⟩
    intro x hx
    rcases List.mem_cons.1 hx with hx | hx
    · subst hx
      exact le_trans (le_max_right m x) h1
    · exact h2 x hx

theorem foldl_max_mem (l : List Nat) (m : Nat) :
    l.foldl max m = m ∨ l.foldl max m ∈ l := by
  induction l generalizing m with
  | nil => simp
  | cons a as ih =>
    rw [List.foldl_cons]
    rcases ih (max m a) with h | h
    · rw [h]
      rcases le_total m a with hle | hle
      · right
        rw [max_eq_right hle]
        exact List.mem_cons_self _ _
      · left
        exact max_eq_left hle
    · right
      exact List.mem_cons_of_mem _ h

theorem mem_take_map_iff (nodes : List Node) (k : Nat) (hk : k ≤ nodes.length) (x : Nat) :
    x ∈ (nodes.take k).map queuedBeyondFirst
      ↔ ∃ i, i < k ∧ queuedBeyondFirst (nodes.getD i []) = x := by
  rw [List.mem_map]
  constructor
  · rintro ⟨d, hd, rfl⟩
    obtain ⟨i, hi, hget⟩ := List.getElem_of_mem hd
    rw [List.length_take] at hi
    refine ⟨i, by omega, ?_⟩
    rw [List.getElem_take] at hget
    rw [List.getD_eq_getElem?_getD, List.getElem?_eq_getElem (by omega), Option.getD_some, hget]
  · rintro ⟨i, hi, rfl⟩
    have hlt : i < nodes.length := by omega
    refine ⟨nodes[i], ?_, ?_⟩
    · rw [List.mem_take_iff_getElem]
      exact ⟨i, by omega, rfl⟩
    · rw [List.getD_eq_getElem?_getD, List.getElem?_eq_getElem hlt, Option.getD_some]

/-- C8. When the 80 monitored nodes exist, `print_queue_length` prints one line
whose value is the maximum over the nodes 0..79 of the sum of the queued-packet
counts of the node's devices of index at least 1: every monitored node's sum is
at most the value and some monitored node's sum equals it.  The value is 0 when
all those queues are empty, and the `nodes` container is left as it was. -/
theorem print_queue_length_max (now : Nat) (w : World) (h80 : 80 ≤ w.nodes.length) :
    ∃ m, print_queue_length now w = some { nodes := w.nodes, log := w.log ++ [⟨now, m⟩] }
      ∧ (∀ i, i < 80 → queuedBeyondFirst (w.nodes.getD i []) ≤ m)
      ∧ (∃ i, i < 80 ∧ queuedBeyondFirst (w.nodes.getD i []) = m)
      ∧ ((∀ i, i < 80 → queuedBeyondFirst (w.nodes.getD i []) = 0) → m = 0) := by
  have hloop := nodeLoop_eq w.nodes 80 0 0 (by omega)
  rw [List.drop_zero] at hloop
  have hge := foldl_max_ge ((w.nodes.take 80).map queuedBeyondFirst) 0
  have hmem := foldl_max_mem ((w.nodes.take 80).map queuedBeyondFirst) 0
  have hex : ∃ i, i < 80
      ∧ queuedBeyondFirst (w.nodes.getD i [])
        = ((w.nodes.take 80).map queuedBeyondFirst).foldl max 0 := by
    rcases hmem with h | h
    · refine ⟨0, by decide, ?_⟩
      rw [h]
      have := hge.2 (queuedBeyondFirst (w.nodes.getD 0 []))
        ((mem_take_map_iff w.nodes 80 h80 _).2 ⟨0, by decide, rfl⟩)
      omega
    · exact (mem_take_map_iff w.nodes 80 h80 _).1 h
  refine ⟨_, by simp only [print_queue_length, hloop], ?_, hex, ?_⟩
  · intro i hi
    exact hge.2 _ ((mem_take_map_iff w.nodes 80 h80 _).2 ⟨i, hi, rfl⟩)
  · intro hz
    obtain ⟨i, hi, heq⟩ := hex
    rw [← heq]
    exact hz i hi

set_option maxRecDepth 100000 in
/-- C8, with 79 idle nodes and a last node whose devices 1 and 2 hold 2 and 3
packets (its device 0 entry, 9, is not read): the line printed carries 5. -/
theorem print_queue_length_max_witness :
    80 ≤ (List.replicate 79 [5, 0] ++ [[9, 2, 3]]).length
    ∧ print_queue_length 4 ⟨List.replicate 79 [5, 0] ++ [[9, 2, 3]], []⟩
        = some ⟨List.replicate 79 [5, 0] ++ [[9, 2, 3]], [⟨4, 5⟩]⟩
    ∧ ∃ m, print_queue_length 4 ⟨List.replicate 79 [5, 0] ++ [[9, 2, 3]], []⟩
        = some ⟨List.replicate 79 [5, 0] ++ [[9, 2, 3]], [] ++ [⟨4, m⟩]⟩
      ∧ (∀ i, i < 80 →
          queuedBeyondFirst ((List.replicate 79 [5, 0] ++ [[9, 2, 3]]).getD i []) ≤ m)
      ∧ (∃ i, i < 80 ∧
          queuedBeyondFirst ((List.replicate 79 [5, 0] ++ [[9, 2, 3]]).getD i []) = m)
      ∧ ((∀ i, i < 80 →
          queuedBeyondFirst ((List.replicate 79 [5, 0] ++ [[9, 2, 3]]).getD i []) = 0) → m = 0) :=
  ⟨by decide, by decide,
    print_queue_length_max 4 ⟨List.replicate 79 [5, 0] ++ [[9, 2, 3]], []⟩ (by decide)⟩

/-! ### Readers -/

theorem matrixLoop_pos (extract : List Char → List Bool) (ls : List (List Char))
    (i n : Nat) (arr : List (List Bool)) (hi : 0 < i) :
    matrixLoop extract ls i n arr
      = if ((ls.takeWhile (fun l => decide (l ≠ []))).map extract).all
            (fun r => decide (r.length = n)) = true
        then Except.ok (i + ((ls.takeWhile (fun l => decide (l ≠ []))).map extract).length, n,
              arr ++ (ls.takeWhile (fun l => decide (l ≠ []))).map extract)
        else Except.error ReadError.columnMismatch := by
  induction ls generalizing i arr with
  | nil => simp [matrixLoop]
  | cons l rest ih =>
    have hi0 : i ≠ 0 := by omega
    by_cases hl : l = []
    · simp [matrixLoop, hl]
    · by_cases hj : (extract l).length = n
      · simp only [matrixLoop, hl, hi0, if_false, hj, ne_eq, not_true_eq_false]
        rw [ih (i + 1) _ (by omega)]
        simp [List.takeWhile_cons, hl, hj]
        rw [show i + 1 + (rest.takeWhile (fun l => !decide (l = []))).length
          = i + ((rest.takeWhile (fun l => !decide (l = []))).length + 1) by omega]
      · simp [matrixLoop, hl, hi0, hj, List.takeWhile_cons]

theorem matrixLoop_zero_cons (extract : List Char → List Bool) (l : List Char)
    (rest : List (List Char)) (hl : l ≠ []) :
    matrixLoop extract (l :: rest) 0 0 []
      = matrixLoop extract rest 1 (extract l).length [extract l] := by
  simp [matrixLoop, hl]

theorem all_length_iff (rows : List (List Bool)) (n : Nat) :
    rows.all (fun r => decide (r.length = n)) = true ↔ ∀ r ∈ rows, r.length = n := by
  simp [List.all_eq_true]

theorem readNxNMatrix_cases (extract : List Char → List Bool) (content : List Char) :
    (UniformRows ((linesBeforeBlank content).map extract)
      ∧ readNxNMatrix extract (some content) = Except.ok ((linesBeforeBlank content).map extract))
    ∨ (¬ UniformRows ((linesBeforeBlank content).map extract)
      ∧ ∃ e, readNxNMatrix extract (some content) = Except.error e) := by
  unfold linesBeforeBlank readNxNMatrix
  simp only []
  generalize fileLines content = ls
  rcases ls with _ | ⟨l, rest⟩
  · left
    simp [matrixLoop, UniformRows]
  · by_cases hl : l = []
    · left
      simp [matrixLoop, hl, UniformRows]
    · simp only [matrixLoop_zero_cons extract l rest hl]
      rw [matrixLoop_pos extract rest 1 _ _ (by decide)]
      have htw : (l :: rest).takeWhile (fun l => decide (l ≠ []))
          = l :: rest.takeWhile (fun l => decide (l ≠ [])) := by
        simp [List.takeWhile_cons, hl]
      rw [htw]
      by_cases hall : ((rest.takeWhile (fun l => decide (l ≠ []))).map extract).all
          (fun r => decide (r.length = (extract l).length)) = true
      · rw [if_pos hall]
        have hall' := (all_length_iff _ _).1 hall
        by_cases hsq : 1 + ((rest.takeWhile (fun l => decide (l ≠ []))).map extract).length
            = (extract l).length
        · left
          refine ⟨⟨?_, ?_⟩, ?_⟩
          · intro r hr
            simp only [List.map_cons, List.mem_cons, List.headD_cons] at hr ⊢
            rcases hr with hr | hr
            · rw [hr]
            · exact hall' r hr
          · simp only [List.map_cons, List.length_cons, List.headD_cons]
            omega
          · simpa using hsq
        · right
          refine ⟨?_, ReadError.rowsNotEqualColumns, ?_⟩
          · rintro ⟨_, h2⟩
            simp only [List.map_cons, List.length_cons, List.headD_cons] at h2
            omega
          · simpa using hsq
      · rw [if_neg hall]
        right
        refine ⟨?_, ReadError.columnMismatch, rfl⟩
        rintro ⟨h1, _⟩
        apply hall
        rw [all_length_iff]
        intro r hr
        have := h1 r (by simp only [List.map_cons, List.mem_cons]; exact Or.inr hr)
        simpa using this

theorem uniformRows_square (rows : List (List Bool)) (h : UniformRows rows) :
    IsSquare rows rows.length :=
  ⟨rfl, fun r hr => (h.1 r hr).trans h.2.symm⟩

/-- C4. `readNxNMatrix` returns exactly when the rows parsed from the lines
before the first empty line (or the end of the file) all have as many entries
as row 0 and there are as many rows as that; it then returns those rows in file
order.  In every other case, and when the file cannot be opened, it ends the
program.  Every matrix it returns is square: N rows of N entries. -/
theorem readNxNMatrix_square (extract : List Char → List Bool) (content : List Char) :
    (UniformRows ((linesBeforeBlank content).map extract) →
      readNxNMatrix extract (some content) = Except.ok ((linesBeforeBlank content).map extract))
    ∧ (¬ UniformRows ((linesBeforeBlank content).map extract) →
      ∃ e, readNxNMatrix extract (some content) = Except.error e)
    ∧ (∀ M, readNxNMatrix extract (some content) = Except.ok M →
        M = (linesBeforeBlank content).map extract
        ∧ UniformRows ((linesBeforeBlank content).map extract)
        ∧ IsSquare M M.length)
    ∧ readNxNMatrix extract none = Except.error ReadError.fileNotFound := by
  refine ⟨?_, ?_, ?_, rfl⟩
  · intro hu
    rcases readNxNMatrix_cases extract content with h | h
    · exact h.2
    · exact absurd hu h.1
  · intro hu
    rcases readNxNMatrix_cases extract content with h | h
    · exact absurd h.1 hu
    · exact h.2
  · intro M hM
    rcases readNxNMatrix_cases extract content with h | h
    · rw [h.2] at hM
      cases hM
      exact ⟨rfl, h.1, uniformRows_square _ h.1⟩
    · obtain ⟨e, he⟩ := h.2
      rw [he] at hM
      cases hM

/-- C4, on the file `0 1⏎0 0⏎`: the 2×2 matrix is returned; on the ragged file
`0 1⏎0⏎` the program ends. -/
theorem readNxNMatrix_square_witness :
    readNxNMatrix extractBits (some "0 1\n0 0\n".toList)
        = Except.ok [[false, true], [false, false]]
    ∧ IsSquare [[false, true], [false, false]] 2
    ∧ readNxNMatrix extractBits (some "0 1\n0\n".toList)
        = Except.error ReadError.columnMismatch
    ∧ readNxNMatrix extractBits (some "0 1\n".toList)
        = Except.error ReadError.rowsNotEqualColumns :=
  ⟨rfl, ((readNxNMatrix_square extractBits "0 1\n0 0\n".toList).2.2.1 _ rfl).2.2, rfl, rfl⟩

theorem coordLoop_eq (extract : List Char → List ℚ) (ls : List (List Char)) (m : Nat)
    (arr : List (List ℚ)) :
    coordLoop extract ls m arr
      = if ((ls.takeWhile (fun l => decide (l ≠ []))).map extract).all
            (fun r => decide (r.length = 2)) = true
        then Except.ok (arr ++ (ls.takeWhile (fun l => decide (l ≠ []))).map extract)
        else Except.error ReadError.notTwoCoordinates := by
  induction ls generalizing m arr with
  | nil => simp [coordLoop]
  | cons l rest ih =>
    by_cases hl : l = []
    · simp [coordLoop, hl]
    · by_cases hj : (extract l).length = 2
      · simp only [coordLoop, hl, if_false, hj, ne_eq, not_true_eq_false]
        rw [ih (m + 1) _]
        simp [List.takeWhile_cons, hl, hj]
      · simp [coordLoop, hl, hj, List.takeWhile_cons]

/-- C5 as stated fails: in the file `1 2⏎⏎3⏎` the non-empty row `3` holds one
number, yet `readCordinatesFile` returns the list `[(1,2)]`: reading stops at
the empty second line. -/
theorem readCordinatesFile_blank_counterexample :
    (∃ l ∈ fileLines "1 2\n\n3\n".toList, l ≠ [] ∧ (extractIntegers l).length ≠ 2)
    ∧ readCordinatesFile extractIntegers (some "1 2\n\n3\n".toList) = Except.ok [[1, 2]] :=
  ⟨⟨"3".toList, by decide, by decide, by decide⟩, rfl⟩

/-- C5, amended. `readCordinatesFile` ends the program when some line before the
first empty line (or the end of the file) does not yield exactly two numbers;
otherwise it returns the rows of those lines in file order.  Lines after the
first empty line are not read.  Every row of a returned list has exactly two
coordinates. -/
theorem readCordinatesFile_two (extract : List Char → List ℚ) (content : List Char) :
    ((∃ l ∈ linesBeforeBlank content, (extract l).length ≠ 2) →
      readCordinatesFile extract (some content) = Except.error ReadError.notTwoCoordinates)
    ∧ ((∀ l ∈ linesBeforeBlank content, (extract l).length = 2) →
      readCordinatesFile extract (some content)
        = Except.ok ((linesBeforeBlank content).map extract))
    ∧ (∀ C, readCordinatesFile extract (some content) = Except.ok C →
        C = (linesBeforeBlank content).map extract ∧ ∀ row ∈ C, row.length = 2)
    ∧ readCordinatesFile extract none = Except.error ReadError.fileNotFound := by
  have hloop := coordLoop_eq extract (fileLines content) 0 []
  have hall : ((linesBeforeBlank content).map extract).all (fun r => decide (r.length = 2)) = true
      ↔ ∀ l ∈ linesBeforeBlank content, (extract l).length = 2 := by
    simp [List.all_eq_true]
  unfold readCordinatesFile
  simp only []
  rw [hloop, List.nil_append]
  change _ ∧ _ ∧ (∀ C, (if ((linesBeforeBlank content).map extract).all
      (fun r => decide (r.length = 2)) = true
      then Except.ok ((linesBeforeBlank content).map extract)
      else Except.error ReadError.notTwoCoordinates) = Except.ok C → _) ∧ _
  refine ⟨?_, ?_, ?_, trivial⟩
  · rintro ⟨l, hl, hne⟩
    have : ¬ ((linesBeforeBlank content).map extract).all (fun r => decide (r.length = 2)) = true :=
      fun h => hne (hall.1 h l hl)
    exact if_neg this
  · intro h
    exact if_pos (hall.2 h)
  · intro C hC
    by_cases h : ((linesBeforeBlank content).map extract).all (fun r => decide (r.length = 2)) = true
    · rw [if_pos h] at hC
      cases hC
      refine ⟨rfl, ?_⟩
      intro row hrow
      obtain ⟨l, hl, rfl⟩ := List.mem_map.1 hrow
      exact hall.1 h l hl
    · rw [if_neg h] at hC
      cases hC

/-- C5 amended, on the file `0 0⏎1 -1⏎`: two rows of two coordinates; on the
file `0 0⏎1⏎` the program ends. -/
theorem readCordinatesFile_two_witness :
    readCordinatesFile extractIntegers (some "0 0\n1 -1\n".toList) = Except.ok [[0, 0], [1, -1]]
    ∧ (∀ row ∈ [[(0 : ℚ), 0], [1, -1]], row.length = 2)
    ∧ readCordinatesFile extractIntegers (some "0 0\n1\n".toList)
        = Except.error ReadError.notTwoCoordinates :=
  ⟨rfl, ((readCordinatesFile_two extractIntegers "0 0\n1 -1\n".toList).2.2.1 _ rfl).2,
    (readCordinatesFile_two extractIntegers "0 0\n1\n".toList).1
      ⟨"1".toList, by decide, by decide⟩⟩

/-! ### Node positions -/

theorem placeLoop_spec (rows : List (List ℚ)) (m : Nat) (s : PlaceState)
    (hrows : ∀ row ∈ rows, row.length = 2) (hm : m + rows.length ≤ s.position.length) :
    ∃ s', placeLoop rows m s = some s'
      ∧ s'.positionAlloc_n
          = s.positionAlloc_n ++ rows.map (fun row => ⟨row.getD 0 0, row.getD 1 0, 0⟩)
      ∧ s'.position.length = s.position.length
      ∧ (∀ k, k < m → s'.position[k]? = s.position[k]?)
      ∧ (∀ k, k < rows.length →
          s'.position[m + k]?
            = some (some ⟨(rows.getD k []).getD 0 0, -(rows.getD k []).getD 1 0, 0⟩)) := by
  induction rows generalizing m s with
  | nil => exact ⟨s, rfl, by simp, rfl, fun _ _ => rfl, by simp⟩
  | cons row rest ih =>
    have hlen : row.length = 2 := hrows row (List.mem_cons_self _ _)
    obtain ⟨x, y, rfl⟩ : ∃ x y, row = [x, y] := by
      match row, hlen with
      | [x, y], _ => exact ⟨x, y, rfl⟩
    simp only [List.length_cons] at hm
    have hlt : m < s.position.length := by omega
    obtain ⟨s', hs', halloc, hplen, hbefore, hafter⟩ :=
      ih (m + 1) { positionAlloc_n := s.positionAlloc_n ++ [⟨x, y, 0⟩]
                   position := s.position.set m (some ⟨x, -y, 0⟩) }
        (fun r hr => hrows r (List.mem_cons_of_mem _ hr))
        (by simp only [List.length_set]; omega)
    refine ⟨s', ?_, ?_, ?_, ?_, ?_⟩
    · simp [placeLoop, hlt, hs']
    · rw [halloc]
      simp
    · rw [hplen, List.length_set]
    · intro k hk
      rw [hbefore k (by omega)]
      simp only []
      rw [List.getElem?_set_ne (by omega)]
    · intro k hk
      rcases k with _ | k
      · rw [Nat.add_zero, hbefore m (by omega)]
        simp only []
        rw [List.getElem?_set_self hlt]
        simp
      · have := hafter k (by simp only [List.length_cons] at hk; omega)
        rw [show m + (k + 1) = m + 1 + k by omega, this]
        simp

/-- Before the final install, every node `m` stands at `(x, -y, 0)` for the
row `(x, y)` of the coordinate list; the allocator holds `(x, y, 0)`. -/
theorem placeNodes_negated (coord_array : List (List ℚ))
    (hrows : ∀ row ∈ coord_array, row.length = 2) :
    ∃ s, placeNodes coord_array = some s
      ∧ s.position.length = coord_array.length
      ∧ s.positionAlloc_n = coord_array.map (fun row => ⟨row.getD 0 0, row.getD 1 0, 0⟩)
      ∧ ∀ m, m < coord_array.length →
          s.position[m]?
            = some (some ⟨(coord_array.getD m []).getD 0 0, -(coord_array.getD m []).getD 1 0, 0⟩) := by
  obtain ⟨s, hs, halloc, hlen, _, hpos⟩ :=
    placeLoop_spec coord_array 0 (PlaceState.init coord_array.length) hrows
      (by simp [PlaceState.init])
  refine ⟨s, hs, ?_, ?_, ?_⟩
  · rw [hlen]
    simp [PlaceState.init]
  · rw [halloc]
    simp [PlaceState.init]
  · intro m hm
    have := hpos m hm
    rwa [Nat.zero_add] at this

/-- After the final install, every node `m` stands at the allocator's `(x, y, 0)`
for the row `(x, y)` of the coordinate list: the y-coordinate is not negated. -/
theorem allocatePositions_not_negated (coord_array : List (List ℚ))
    (hrows : ∀ row ∈ coord_array, row.length = 2) :
    ∃ ps, allocatePositions coord_array = some ps
      ∧ ps.length = coord_array.length
      ∧ ∀ m, m < coord_array.length →
          ps[m]? = some (some ⟨(coord_array.getD m []).getD 0 0, (coord_array.getD m []).getD 1 0, 0⟩) := by
  obtain ⟨s, hs, hlen, halloc, _⟩ := placeNodes_negated coord_array hrows
  refine ⟨mobilityInstall s, by simp [allocatePositions, hs], by simp [mobilityInstall, hlen], ?_⟩
  intro m hm
  simp only [mobilityInstall, hlen, halloc, List.length_map]
  rw [List.getElem?_map, List.getElem?_range hm]
  simp only [Option.map_some', Nat.mod_eq_of_lt hm]
  rw [List.getElem?_map, List.getElem?_eq_getElem hm]
  simp [List.getD_eq_getElem?_getD, List.getElem?_eq_getElem hm]

/-- C7 at the coordinate list `[(0,0),(1,1)]`: the loop sets node 1 to
`(1, -1, 0)` and puts `(1, 1, 0)` into the allocator; the install that ends the
block then sets node 1 to `(1, 1, 0)`, so its stored y is the input y, not its
negation. -/
theorem position_after_install_not_negated :
    placeNodes [[0, 0], [1, 1]]
        = some ⟨[⟨0, 0, 0⟩, ⟨1, 1, 0⟩], [some ⟨0, -0, 0⟩, some ⟨1, -1, 0⟩]⟩
    ∧ allocatePositions [[0, 0], [1, 1]] = some [some ⟨0, 0, 0⟩, some ⟨1, 1, 0⟩]
    ∧ (∀ ps, allocatePositions [[0, 0], [1, 1]] = some ps →
        ps[1]? ≠ some (some ⟨1, -1, 0⟩)) := by
  refine ⟨by rfl, by rfl, ?_⟩
  intro ps hps
  have h : allocatePositions [[0, 0], [1, 1]] = some [some ⟨0, 0, 0⟩, some ⟨1, 1, 0⟩] := by rfl
  rw [h] at hps
  cases hps
  decide

/-! ### The loop over all decision intervals -/

theorem intervalFlows_prefix (computer_n : Nat) (gen : List Nat) (time r : Nat)
    (hc : 2 ≤ computer_n) (hlen : gen.length = computer_n) :
    ∃ fs p, pair_number computer_n r = some p
      ∧ intervalFlows computer_n gen time r = some fs
      ∧ fs.length = p ∧ 2 * p ≤ computer_n
      ∧ fs.flatMap Flow.nodes = gen.take (2 * p) := by
  obtain ⟨p, hp, _, hple, _⟩ := pair_number_spec computer_n r hc
  have hbound := two_mul_div_two_le computer_n
  obtain ⟨fs, hfs, hfl, hflat, _⟩ := pairLoop_spec gen time p 0 (by omega)
  exact ⟨fs, p, hp, by simp [intervalFlows, hp, hfs], hfl, by omega, by simpa using hflat⟩

theorem scheduleLoop_distinct (computer_n : Nat) (draws : List (List Nat × Nat))
    (gen : List Nat) (time : Nat) (hc : 2 ≤ computer_n)
    (hgen : gen.Perm (i_j_generator computer_n)) (hchain : ShuffleChain gen draws) :
    ∃ out, scheduleLoop computer_n draws time = some out
      ∧ out.length = draws.length
      ∧ ∀ fs ∈ out, 1 ≤ fs.length ∧ (fs.flatMap Flow.nodes).Nodup
          ∧ ∀ v ∈ fs.flatMap Flow.nodes, v < computer_n := by
  induction draws generalizing gen time with
  | nil => exact ⟨[], rfl, rfl, by simp⟩
  | cons d ds ih =>
    obtain ⟨hd, hrest⟩ := hchain
    have hperm : d.1.Perm (i_j_generator computer_n) := hd.trans hgen
    have hlen : d.1.length = computer_n := by
      rw [hperm.length_eq, i_j_generator, List.length_range]
    have hnd : d.1.Nodup := hperm.nodup_iff.2 (List.nodup_range computer_n)
    obtain ⟨fs, p, hp, hfs, hfl, _, hflat⟩ := intervalFlows_prefix computer_n d.1 time d.2 hc hlen
    obtain ⟨p', hp', h1, _, _⟩ := pair_number_spec computer_n d.2 hc
    obtain ⟨out, hout, holen, hall⟩ := ih d.1 (time + 1) hperm hrest
    refine ⟨fs :: out, by simp [scheduleLoop, hfs, hout], by simp [holen], ?_⟩
    intro gs hgs
    rcases List.mem_cons.1 hgs with h | h
    · subst h
      refine ⟨?_, ?_, ?_⟩
      · rw [hp] at hp'
        cases hp'
        omega
      · rw [hflat]
        exact List.Nodup.sublist (List.take_sublist _ _) hnd
      · intro v hv
        rw [hflat] at hv
        have hv' : v ∈ i_j_generator computer_n := hperm.subset (List.mem_of_mem_take hv)
        simpa [i_j_generator] using hv'
    · exact hall gs h

/-! ### Node lookups of the probe and of the flow loop -/

theorem mem_probeLookups (n i v : Nat) : v ∈ probeLookups n i ↔ i ≤ v ∧ v < i + n := by
  induction n generalizing i with
  | zero =>
    simp only [probeLookups, List.not_mem_nil, false_iff]
    omega
  | succ n ih =>
    simp only [probeLookups, List.mem_cons, ih]
    omega

theorem nodeLoop_isSome_iff (nodes : List Node) (n i m : Nat) :
    (nodeLoop nodes n i m).isSome = true ↔ ∀ v ∈ probeLookups n i, v < nodes.length := by
  induction n generalizing i m with
  | zero => simp [nodeLoop, probeLookups]
  | succ n ih =>
    by_cases hi : i < nodes.length
    · rw [nodeLoop, List.getElem?_eq_getElem hi]
      simp only []
      rw [ih]
      simp only [probeLookups, List.mem_cons, forall_eq_or_imp, hi, true_and]
    · rw [nodeLoop, List.getElem?_eq_none (by omega)]
      simp only [Option.isSome_none, Bool.false_eq_true, false_iff]
      intro h
      exact hi (h i (by simp [probeLookups]))

theorem print_queue_length_isSome_iff (now : Nat) (w : World) :
    (print_queue_length now w).isSome = true
      ↔ ∀ v ∈ print_queue_length_lookups, v < w.nodes.length := by
  unfold print_queue_length_lookups
  rw [← nodeLoop_isSome_iff w.nodes 80 0 0]
  unfold print_queue_length
  cases nodeLoop w.nodes 80 0 0 <;> simp

theorem print_queue_length_missing (now : Nat) (w : World) (h : w.nodes.length < 80) :
    print_queue_length now w = none := by
  have hiff := print_queue_length_isSome_iff now w
  cases hp : print_queue_length now w with
  | none => rfl
  | some w' =>
    rw [hp] at hiff
    have := hiff.1 rfl 79 ((mem_probeLookups 80 0 79).2 (by omega))
    omega

/-! ### Name registration in the link loop -/

theorem registerAll_append (names l1 l2 : List Name) :
    registerAll names (l1 ++ l2)
      = match registerAll names l1 with
        | Except.error e => Except.error e
        | Except.ok ns => registerAll ns l2 := by
  induction l1 generalizing names with
  | nil => rfl
  | cons n rest ih =>
    simp only [List.cons_append, registerAll]
    cases registerName names n with
    | error e => rfl
    | ok names' => exact ih names'

theorem registerAll_ok (names l : List Name) (hnd : l.Nodup) (hdis : ∀ n ∈ l, n ∉ names) :
    registerAll names l = Except.ok (names ++ l) := by
  induction l generalizing names with
  | nil => simp [registerAll]
  | cons n rest ih =>
    rw [List.nodup_cons] at hnd
    have hn : n ∉ names := hdis n (List.mem_cons_self _ _)
    simp only [registerAll, registerName, if_neg hn]
    rw [ih (names ++ [n]) hnd.2]
    · simp
    · intro m hm hmem
      rcases List.mem_append.1 hmem with h | h
      · exact hdis m (List.mem_cons_of_mem _ hm) h
      · rw [List.mem_singleton] at h
        exact hnd.1 (h ▸ hm)

theorem registerAll_error (names l : List Name)
    (h : ¬ (l.Nodup ∧ ∀ n ∈ l, n ∉ names)) :
    ∃ n, n ∈ l ∧ registerAll names l = Except.error (SetupError.nameTaken n) := by
  induction l generalizing names with
  | nil => exact absurd ⟨List.nodup_nil, by simp⟩ h
  | cons n rest ih =>
    by_cases hn : n ∈ names
    · exact ⟨n, List.mem_cons_self _ _, by simp [registerAll, registerName, hn]⟩
    · have hrest : ¬ (rest.Nodup ∧ ∀ m ∈ rest, m ∉ names ++ [n]) := by
        rintro ⟨hnd, hdis⟩
        apply h
        refine ⟨List.nodup_cons.2 ⟨?_, hnd⟩, ?_⟩
        · intro hmem
          exact hdis n hmem (by simp)
        · intro m hm
          rcases List.mem_cons.1 hm with hm | hm
          · rw [hm]
            exact hn
          · intro hmem
            exact hdis m hm (List.mem_append_left _ hmem)
      obtain ⟨m, hm, herr⟩ := ih (names ++ [n]) hrest
      exact ⟨m, List.mem_cons_of_mem _ hm, by simp [registerAll, registerName, hn, herr]⟩

theorem namedAddLink_eq (c i j : Nat) (s : NamedState) :
    namedAddLink c i j s
      = match registerAll s.names (linkNames c (i, j)) with
        | Except.error e => Except.error e
        | Except.ok ns => Except.ok ⟨addLink c i j s.build, ns⟩ := by
  unfold namedAddLink linkNames
  simp only [registerAll]
  cases registerName s.names (deviceName c i j) with
  | error e => rfl
  | ok names3 =>
    simp only []
    cases registerName names3 (deviceName c j i) with
    | error e => rfl
    | ok names4 => rfl

theorem namedScanRow_eq (c i : Nat) (bs : List Bool) (j : Nat) (s : NamedState) :
    namedScanRow c i bs j s
      = match registerAll s.names (rowLinkNames c i bs j) with
        | Except.error e => Except.error e
        | Except.ok ns => Except.ok ⟨scanRow c i bs j s.build, ns⟩ := by
  induction bs generalizing j s with
  | nil => rfl
  | cons b bs ih =>
    cases b
    · simp only [namedScanRow, rowLinkNames, scanRow, Bool.false_eq_true, if_false,
        List.nil_append]
      exact ih (j + 1) s
    · simp only [namedScanRow, rowLinkNames, scanRow, if_true]
      rw [registerAll_append, namedAddLink_eq]
      cases registerAll s.names (linkNames c (i, j)) with
      | error e => rfl
      | ok ns => exact ih (j + 1) ⟨addLink c i j s.build, ns⟩

theorem namedScanRows_eq (c : Nat) (M : List (List Bool)) (i : Nat) (s : NamedState) :
    namedScanRows c M i s
      = match registerAll s.names (matrixLinkNames c M i) with
        | Except.error e => Except.error e
        | Except.ok ns => Except.ok ⟨scanRows c M i s.build, ns⟩ := by
  induction M generalizing i s with
  | nil => rfl
  | cons r rs ih =>
    simp only [namedScanRows, matrixLinkNames, scanRows]
    rw [registerAll_append, namedScanRow_eq]
    cases registerAll s.names (rowLinkNames c i r 0) with
    | error e => rfl
    | ok ns => exact ih (i + 1) ⟨scanRow c i r 0 s.build, ns⟩

theorem rowLinkNames_append (c i : Nat) (xs ys : List Bool) (j : Nat) :
    rowLinkNames c i (xs ++ ys) j
      = rowLinkNames c i xs j ++ rowLinkNames c i ys (j + xs.length) := by
  induction xs generalizing j with
  | nil => simp [rowLinkNames]
  | cons b bs ih =>
    simp only [List.cons_append, rowLinkNames, List.length_cons, List.append_assoc]
    have h := ih (j + 1)
    rw [show j + 1 + bs.length = j + (bs.length + 1) by omega] at h
    exact congrArg _ h

theorem matrixLinkNames_append (c : Nat) (xs ys : List (List Bool)) (i : Nat) :
    matrixLinkNames c (xs ++ ys) i
      = matrixLinkNames c xs i ++ matrixLinkNames c ys (i + xs.length) := by
  induction xs generalizing i with
  | nil => simp [matrixLinkNames]
  | cons r rs ih =>
    simp only [List.cons_append, matrixLinkNames, List.length_cons, List.append_assoc]
    have h := ih (i + 1)
    rw [show i + 1 + rs.length = i + (rs.length + 1) by omega] at h
    exact congrArg _ h

theorem rowLinkNames_eq (c i : Nat) (bs : List Bool) :
    rowLinkNames c i bs 0 = ((trueCols bs).map (Prod.mk i)).flatMap (linkNames c) := by
  induction bs using List.reverseRecOn with
  | nil => simp [rowLinkNames, trueCols]
  | append_singleton bs b ih =>
    rw [rowLinkNames_append, trueCols_append_one, ih]
    cases b <;> simp [rowLinkNames]

theorem matrixLinkNames_eq (c : Nat) (M : List (List Bool)) :
    matrixLinkNames c M 0 = (trueEntries M).flatMap (linkNames c) := by
  induction M using List.reverseRecOn with
  | nil => simp [matrixLinkNames, trueEntries]
  | append_singleton M r ih =>
    rw [matrixLinkNames_append, trueEntries_append_one, ih, List.flatMap_append]
    simp [matrixLinkNames, rowLinkNames_eq]

theorem namedBuildLinks_eq (c : Nat) (names : List Name) (M : List (List Bool)) :
    namedBuildLinks c names M
      = match registerAll names ((trueEntries M).flatMap (linkNames c)) with
        | Except.error e => Except.error e
        | Except.ok ns => Except.ok ⟨buildLinks c M, ns⟩ := by
  unfold namedBuildLinks buildLinks
  rw [namedScanRows_eq, matrixLinkNames_eq]

theorem trueEntries_eq_nil (M : List (List Bool)) (h : countTrue M = 0) : trueEntries M = [] := by
  rw [← List.length_eq_zero, length_trueEntries]
  exact h

theorem linkNames_not_nodup_of_symmetric (c : Nat) (M : List (List Bool))
    (hsym : IsSymmetric M) (hne : countTrue M ≠ 0) :
    ¬ ((trueEntries M).flatMap (linkNames c)).Nodup := by
  intro hnd
  rw [List.nodup_flatMap] at hnd
  obtain ⟨hall, hpw⟩ := hnd
  have hlen : (trueEntries M).length ≠ 0 := by
    rw [length_trueEntries]
    exact hne
  obtain ⟨⟨i, j⟩, hmem⟩ := List.exists_mem_of_length_pos (Nat.pos_of_ne_zero hlen)
  have hswap : (j, i) ∈ trueEntries M := by
    rw [mem_trueEntries] at hmem ⊢
    rw [← hsym]
    exact hmem
  by_cases hij : i = j
  · subst hij
    have := hall (i, i) hmem
    simp [linkNames] at this
  · have hsymm : Symmetric (Function.onFun List.Disjoint (linkNames c)) :=
      fun a b hab => List.Disjoint.symm hab
    have hne' : ((i, j) : Nat × Nat) ≠ (j, i) := by
      intro h
      exact hij (Prod.mk.inj h).1
    have hdisj : List.Disjoint (linkNames c (i, j)) (linkNames c (j, i)) :=
      hpw.forall hsymm hmem hswap hne'
    exact hdisj (a := deviceName c i j) (by simp [linkNames]) (by simp [linkNames])

theorem nodeName_injective (c : Nat) : Function.Injective (nodeName c) := by
  intro a b h
  unfold nodeName at h
  by_cases ha : a < c <;> by_cases hb : b < c
  · rw [if_pos ha, if_pos hb] at h
    have := NodeName.computer.inj h
    omega
  · rw [if_pos ha, if_neg hb] at h
    cases h
  · rw [if_neg ha, if_pos hb] at h
    cases h
  · rw [if_neg ha, if_neg hb] at h
    have := NodeName.router.inj h
    omega

theorem deviceName_eq_iff (c i j k l : Nat) :
    deviceName c i j = deviceName c k l ↔ i = k ∧ j = l := by
  unfold deviceName
  constructor
  · intro h
    have h' := Name.device.inj h
    exact ⟨nodeName_injective c h'.1, nodeName_injective c h'.2⟩
  · rintro ⟨rfl, rfl⟩
    rfl

theorem linkNames_nodup_of_antisymmetric (c : Nat) (M : List (List Bool))
    (hanti : ∀ i j, entry M i j = true → entry M j i = false) :
    ((trueEntries M).flatMap (linkNames c)).Nodup := by
  rw [List.nodup_flatMap]
  constructor
  · rintro ⟨i, j⟩ hmem
    have he := (mem_trueEntries M i j).1 hmem
    have hij : i ≠ j := by
      intro h
      subst h
      have := hanti i i he
      rw [he] at this
      exact Bool.noConfusion this
    simp only [linkNames, List.nodup_cons, List.mem_singleton, List.not_mem_nil,
      not_false_eq_true, List.nodup_nil, and_true, deviceName_eq_iff]
    omega
  · apply List.Pairwise.imp_of_mem _ (nodup_trueEntries M)
    rintro ⟨i, j⟩ ⟨k, l⟩ hp hq hne n hn1 hn2
    have he1 := (mem_trueEntries M i j).1 hp
    have he2 := (mem_trueEntries M k l).1 hq
    simp only [linkNames, List.mem_cons, List.mem_singleton, List.not_mem_nil, or_false] at hn1 hn2
    rcases hn1 with h1 | h1 <;> rcases hn2 with h2 | h2
    · rw [h1, deviceName_eq_iff] at h2
      exact hne (by rw [h2.1, h2.2])
    · rw [h1, deviceName_eq_iff] at h2
      have := hanti i j he1
      rw [h2.1, h2.2, he2] at this
      exact Bool.noConfusion this
    · rw [h1, deviceName_eq_iff] at h2
      have := hanti i j he1
      rw [h2.1, h2.2, he2] at this
      exact Bool.noConfusion this
    · rw [h1, deviceName_eq_iff] at h2
      exact hne (by rw [h2.1, h2.2])

/-- On a matrix that never has both `[i][j]` and `[j][i]` set (in particular on a
strictly upper-triangular one) every device name is new when it is registered
on top of node names, so the link loop with its name registrations runs to
its end and leaves the links and `linkCount` of `buildLinks`. -/
theorem namedBuildLinks_of_antisymmetric (c : Nat) (names : List Name) (M : List (List Bool))
    (hnames : ∀ n ∈ names, ∃ k, n = Name.node k)
    (hanti : ∀ i j, entry M i j = true → entry M j i = false) :
    namedBuildLinks c names M
      = Except.ok ⟨buildLinks c M, names ++ (trueEntries M).flatMap (linkNames c)⟩ := by
  rw [namedBuildLinks_eq, registerAll_ok _ _ (linkNames_nodup_of_antisymmetric c M hanti)]
  intro n hn hmem
  obtain ⟨k, rfl⟩ := hnames n hmem
  obtain ⟨p, _, hp⟩ := List.mem_flatMap.1 hn
  simp [linkNames, deviceName] at hp

theorem antisymmetric_of_strictUpper (M : List (List Bool)) (hup : StrictUpper M) :
    ∀ i j, entry M i j = true → entry M j i = false := by
  intro i j h
  have h1 := hup i j h
  cases hji : entry M j i with
  | false => rfl
  | true =>
    have h2 := hup j i hji
    omega

/-! ### The naming loops -/

theorem nameLoop_ok (word : Nat → NodeName) (hinj : Function.Injective word)
    (offset n_nodes n i : Nat) (names : List Name)
    (hfit : i + n + offset ≤ n_nodes)
    (hfresh : ∀ k, i + 1 ≤ k → Name.node (word k) ∉ names) :
    nameLoop word offset n_nodes n i names
      = Except.ok (names ++ (List.range' (i + 1) n).map (fun k => Name.node (word k))) := by
  induction n generalizing i names with
  | zero => simp [nameLoop]
  | succ n ih =>
    have hlt : ¬ n_nodes ≤ i + offset := by omega
    have hnew : Name.node (word (i + 1)) ∉ names := hfresh (i + 1) (Nat.le_refl _)
    simp only [nameLoop, if_neg hlt, registerName, if_neg hnew]
    rw [ih (i + 1) _ (by omega)]
    · simp [List.range'_succ]
    · intro k hk hmem
      rcases List.mem_append.1 hmem with h | h
      · exact hfresh k (by omega) h
      · rw [List.mem_singleton] at h
        have := hinj (Name.node.inj h)
        omega

theorem nameLoop_missing (word : Nat → NodeName) (hinj : Function.Injective word)
    (offset n_nodes n i : Nat) (names : List Name)
    (hstart : i + offset ≤ n_nodes) (hover : n_nodes < i + n + offset)
    (hfresh : ∀ k, i + 1 ≤ k → Name.node (word k) ∉ names) :
    nameLoop word offset n_nodes n i names = Except.error (SetupError.missingNode n_nodes) := by
  induction n generalizing i names with
  | zero => omega
  | succ n ih =>
    by_cases hat : n_nodes ≤ i + offset
    · have : i + offset = n_nodes := by omega
      rw [nameLoop, if_pos hat, this]
    · have hnew : Name.node (word (i + 1)) ∉ names := hfresh (i + 1) (Nat.le_refl _)
      simp only [nameLoop, if_neg hat, registerName, if_neg hnew]
      apply ih (i + 1) _ (by omega) (by omega)
      intro k hk hmem
      rcases List.mem_append.1 hmem with h | h
      · exact hfresh k (by omega) h
      · rw [List.mem_singleton] at h
        have := hinj (Name.node.inj h)
        omega

theorem computer_injective : Function.Injective NodeName.computer :=
  fun _ _ h => NodeName.computer.inj h

theorem router_injective : Function.Injective NodeName.router :=
  fun _ _ h => NodeName.router.inj h

theorem nameNodes_ok (computer_n router_n n_nodes : Nat)
    (h : computer_n + router_n ≤ n_nodes) :
    ∃ names, nameNodes computer_n router_n n_nodes = Except.ok names
      ∧ ∀ n ∈ names, ∃ k, n = Name.node k := by
  refine ⟨([] ++ (List.range' 1 computer_n).map (fun k => Name.node (NodeName.computer k)))
      ++ (List.range' 1 router_n).map (fun k => Name.node (NodeName.router k)), ?_, ?_⟩
  · unfold nameNodes
    rw [nameLoop_ok NodeName.computer computer_injective 0 n_nodes computer_n 0 [] (by omega)
      (by simp)]
    simp only []
    rw [nameLoop_ok NodeName.router router_injective computer_n n_nodes router_n 0 _ (by omega)]
    intro k _ hmem
    simp at hmem
  · intro n hn
    simp only [List.nil_append, List.mem_append, List.mem_map] at hn
    rcases hn with ⟨k, _, rfl⟩ | ⟨k, _, rfl⟩
    · exact ⟨_, rfl⟩
    · exact ⟨_, rfl⟩

theorem nameNodes_missing (computer_n router_n n_nodes : Nat)
    (h : n_nodes < computer_n + router_n) :
    nameNodes computer_n router_n n_nodes = Except.error (SetupError.missingNode n_nodes) := by
  unfold nameNodes
  by_cases hc : n_nodes < computer_n
  · rw [nameLoop_missing NodeName.computer computer_injective 0 n_nodes computer_n 0 []
      (by omega) (by omega) (by simp)]
  · rw [nameLoop_ok NodeName.computer computer_injective 0 n_nodes computer_n 0 [] (by omega)
      (by simp)]
    simp only []
    rw [nameLoop_missing NodeName.router router_injective computer_n n_nodes router_n 0 _
      (by omega) (by omega)]
    intro k _ hmem
    simp at hmem

/-! ### Symmetric matrices -/

theorem isSquare_pairMatrix : IsSquare pairMatrix 80 := by
  refine ⟨by simp [pairMatrix], ?_⟩
  intro row hrow
  simp only [pairMatrix, List.mem_cons] at hrow
  rcases hrow with h | h | h
  · rw [h]
    simp
  · rw [h]
    simp
  · rw [List.eq_of_mem_replicate h]
    simp

theorem entry_pairMatrix (i j : Nat) :
    entry pairMatrix i j = decide ((i = 0 ∧ j = 1) ∨ (i = 1 ∧ j = 0)) := by
  have hrep : ∀ (n k : Nat), (List.replicate n false).getD k false = false := by
    intro n k
    rw [List.getD_eq_getElem?_getD, List.getElem?_replicate]
    split <;> rfl
  have hrows : ∀ (n k m : Nat),
      ((List.replicate n (List.replicate 80 false)).getD k []).getD m false = false := by
    intro n k m
    rw [List.getD_eq_getElem?_getD (List.replicate n (List.replicate 80 false)) k,
      List.getElem?_replicate]
    split
    · exact hrep 80 m
    · rfl
  unfold entry pairMatrix
  rcases i with _ | _ | i
  · rcases j with _ | _ | j
    · rfl
    · rfl
    · simp only [List.getD_cons_zero, List.getD_cons_succ, hrep]
      simp
  · rcases j with _ | _ | j
    · rfl
    · rfl
    · simp only [List.getD_cons_zero, List.getD_cons_succ, hrep]
      simp
  · simp only [List.getD_cons_succ, hrows]
    simp

theorem isSymmetric_pairMatrix : IsSymmetric pairMatrix := by
  intro i j
  rw [entry_pairMatrix, entry_pairMatrix]
  apply decide_eq_decide.2
  constructor <;> rintro (⟨h1, h2⟩ | ⟨h1, h2⟩) <;> simp [h1, h2]

set_option maxRecDepth 100000 in
/-- C6 as stated fails, on the program's own 50 computers and 30 routers: the
80×80 matrix with exactly `[0][1]` and `[1][0]` set is symmetric with one entry
in the upper triangle, and the scan does not finish with `linkCount = 2`.  The
link for `[0][1]` registers `computer1--computer2` and `computer2--computer1`;
the link for `[1][0]` then hands `computer2--computer1` to `Names::Add` again,
which ends the program. -/
theorem symmetric_pair_counterexample :
    IsSquare pairMatrix 80 ∧ IsSymmetric pairMatrix ∧ countUpper pairMatrix = 1
    ∧ dimensionCheck pairMatrix (List.replicate 80 [0, 0]) = some 80
    ∧ setup 50 30 pairMatrix (List.replicate 80 [0, 0])
        = Except.error
            (SetupError.nameTaken (Name.device (NodeName.computer 2) (NodeName.computer 1)))
    ∧ ¬ (∃ s, setup 50 30 pairMatrix (List.replicate 80 [0, 0]) = Except.ok (80, s)
          ∧ s.build.linkCount = 2 * countUpper pairMatrix) := by
  have hrun : setup 50 30 pairMatrix (List.replicate 80 [0, 0])
      = Except.error
          (SetupError.nameTaken (Name.device (NodeName.computer 2) (NodeName.computer 1))) := by
    rfl
  refine ⟨isSquare_pairMatrix, isSymmetric_pairMatrix, by rfl, by rfl, hrun, ?_⟩
  rintro ⟨s, hs, _⟩
  rw [hrun] at hs
  cases hs

/-- C6, amended. For a symmetric matrix the link loop runs to its end only when
no entry is set, and then `linkCount` is 0, twice the (zero) number of set
entries above the diagonal.  When some entry is set the loop does not reach
its end: the program stops at a `Names::Add` for a device name `i--j` of a set
entry `[i][j]` that is already registered, so no pair of parallel links is
ever counted. -/
theorem namedBuildLinks_symmetric (computer_n : Nat) (names : List Name)
    (M : List (List Bool)) (hsym : IsSymmetric M) :
    (countTrue M = 0 →
      namedBuildLinks computer_n names M = Except.ok ⟨buildLinks computer_n M, names⟩
      ∧ (buildLinks computer_n M).linkCount = 0
      ∧ (buildLinks computer_n M).linkCount = 2 * countUpper M)
    ∧ (countTrue M ≠ 0 →
      ∃ i j, entry M i j = true
        ∧ namedBuildLinks computer_n names M
            = Except.error (SetupError.nameTaken (deviceName computer_n i j)))
    ∧ (∀ s, namedBuildLinks computer_n names M = Except.ok s →
        countTrue M = 0 ∧ s.build.linkCount = 0 ∧ s.build.linkCount = 2 * countUpper M) := by
  have hcount : (buildLinks computer_n M).linkCount = countTrue M := by
    simp [buildLinks, scanRows_linkCount, BuildState.init]
  have hsplit := countTrue_symmetric M hsym
  have hzero : countTrue M = 0 →
      namedBuildLinks computer_n names M = Except.ok ⟨buildLinks computer_n M, names⟩
      ∧ (buildLinks computer_n M).linkCount = 0
      ∧ (buildLinks computer_n M).linkCount = 2 * countUpper M := by
    intro h0
    refine ⟨?_, by omega, by omega⟩
    rw [namedBuildLinks_eq, trueEntries_eq_nil M h0]
    rfl
  have hfail : countTrue M ≠ 0 →
      ∃ i j, entry M i j = true
        ∧ namedBuildLinks computer_n names M
            = Except.error (SetupError.nameTaken (deviceName computer_n i j)) := by
    intro hne
    have hnd := linkNames_not_nodup_of_symmetric computer_n M hsym hne
    obtain ⟨n, hn, herr⟩ := registerAll_error names _ (fun h => hnd h.1)
    obtain ⟨⟨a, b⟩, hp, hnp⟩ := List.mem_flatMap.1 hn
    have he := (mem_trueEntries M a b).1 hp
    simp only [linkNames, List.mem_cons, List.mem_singleton, List.not_mem_nil, or_false] at hnp
    rcases hnp with h | h
    · exact ⟨a, b, he, by rw [namedBuildLinks_eq, herr, h]⟩
    · refine ⟨b, a, ?_, by rw [namedBuildLinks_eq, herr, h]⟩
      rw [hsym]
      exact he
  refine ⟨hzero, hfail, ?_⟩
  intro s hs
  by_cases h0 : countTrue M = 0
  · obtain ⟨hok, h1, h2⟩ := hzero h0
    rw [hok] at hs
    cases hs
    exact ⟨h0, h1, h2⟩
  · obtain ⟨i, j, _, herr⟩ := hfail h0
    rw [herr] at hs
    cases hs

set_option maxRecDepth 100000 in
/-- C6 amended, on the 80×80 matrix with `[0][1]` and `[1][0]` set and the names
of 50 computers and 30 routers registered: the loop stops at a taken
device name. -/
theorem namedBuildLinks_symmetric_witness :
    IsSymmetric pairMatrix
    ∧ countTrue pairMatrix ≠ 0
    ∧ (∃ names, nameNodes 50 30 80 = Except.ok names
        ∧ namedBuildLinks 50 names pairMatrix
            = Except.error
                (SetupError.nameTaken (Name.device (NodeName.computer 2) (NodeName.computer 1)))
        ∧ ∃ i j, entry pairMatrix i j = true
            ∧ namedBuildLinks 50 names pairMatrix
                = Except.error (SetupError.nameTaken (deviceName 50 i j))) := by
  have hne : countTrue pairMatrix ≠ 0 := by decide
  obtain ⟨names, hnames, _⟩ := nameNodes_ok 50 30 80 (by decide)
  refine ⟨isSymmetric_pairMatrix, hne, names, hnames, ?_,
    (namedBuildLinks_symmetric 50 names pairMatrix isSymmetric_pairMatrix).2.1 hne⟩
  have hrun : setup 50 30 pairMatrix (List.replicate 80 [0, 0])
      = Except.error
          (SetupError.nameTaken (Name.device (NodeName.computer 2) (NodeName.computer 1))) := by
    rfl
  have hcheck : dimensionCheck pairMatrix (List.replicate 80 [0, 0]) = some 80 := by rfl
  simp only [setup, hcheck, hnames] at hrun
  cases hb : namedBuildLinks 50 names pairMatrix with
  | error e =>
    rw [hb] at hrun
    simpa using hrun
  | ok s =>
    rw [hb] at hrun
    simp at hrun

/-! ### Node lookups after the set-up -/

theorem dimensionCheck_eq (M : List (List Bool)) (coord_array : List (List ℚ)) (N : Nat)
    (h : dimensionCheck M coord_array = some N) : M.length = N ∧ coord_array.length = N := by
  unfold dimensionCheck at h
  simp only [] at h
  split at h
  · cases h
  · rename_i hne
    have := Option.some.inj h
    omega

theorem setup_ok_iff_names (computer_n router_n N : Nat) (M : List (List Bool))
    (coord_array : List (List ℚ)) (hcheck : dimensionCheck M coord_array = some N)
    (st : Nat × NamedState) (hst : setup computer_n router_n M coord_array = Except.ok st) :
    st.1 = N ∧ computer_n + router_n ≤ N := by
  by_cases hle : computer_n + router_n ≤ N
  · refine ⟨?_, hle⟩
    simp only [setup, hcheck] at hst
    cases hn : nameNodes computer_n router_n N with
    | error e =>
      rw [hn] at hst
      simp at hst
    | ok names =>
      rw [hn] at hst
      simp only [] at hst
      cases hb : namedBuildLinks computer_n names M with
      | error e =>
        rw [hb] at hst
        simp at hst
      | ok s =>
        rw [hb] at hst
        simp only [Except.ok.injEq] at hst
        rw [← hst]
  · simp only [setup, hcheck, nameNodes_missing computer_n router_n N (by omega)] at hst
    simp at hst

/-- For any numbers of computers and routers: below `computer_n + router_n` nodes
the naming loops end the program; a completed set-up has at least that many
nodes, and if that number is at least the 80 of the probe and there are at
least two computers, all node lookups of the probe and of the flow loop are
below the number of nodes. -/
theorem lookups_of_setup (computer_n router_n N now time r : Nat) (M : List (List Bool))
    (coord_array : List (List ℚ)) (w : World) (gen : List Nat)
    (_hsq : IsSquare M N) (hcheck : dimensionCheck M coord_array = some N)
    (h80 : 80 ≤ computer_n + router_n) (hc : 2 ≤ computer_n)
    (hnodes : w.nodes.length = N) (hperm : gen.Perm (i_j_generator computer_n)) :
    (N < computer_n + router_n →
      setup computer_n router_n M coord_array = Except.error (SetupError.missingNode N))
    ∧ (computer_n + router_n ≤ N → (∀ i j, entry M i j = true → entry M j i = false) →
      ∃ s, setup computer_n router_n M coord_array = Except.ok (N, s)
        ∧ s.build = buildLinks computer_n M)
    ∧ (∀ st, setup computer_n router_n M coord_array = Except.ok st →
        st.1 = N ∧ computer_n + router_n ≤ N
        ∧ (∀ v ∈ print_queue_length_lookups, v < N)
        ∧ (print_queue_length now w).isSome = true
        ∧ ∃ fs, intervalFlows computer_n gen time r = some fs
            ∧ ∀ v ∈ flowLookups fs, v < N) := by
  refine ⟨?_, ?_, ?_⟩
  · intro hlt
    simp only [setup, hcheck, nameNodes_missing computer_n router_n N hlt]
  · intro hle hanti
    obtain ⟨names, hnames, hnode⟩ := nameNodes_ok computer_n router_n N hle
    refine ⟨⟨buildLinks computer_n M,
      names ++ (trueEntries M).flatMap (linkNames computer_n)⟩, ?_, rfl⟩
    simp only [setup, hcheck, hnames,
      namedBuildLinks_of_antisymmetric computer_n names M hnode hanti]
  · intro st hst
    obtain ⟨h1, hle⟩ := setup_ok_iff_names computer_n router_n N M coord_array hcheck st hst
    have hprobe : ∀ v ∈ print_queue_length_lookups, v < N := by
      intro v hv
      have := (mem_probeLookups 80 0 v).1 hv
      omega
    have hlen : gen.length = computer_n := by
      rw [hperm.length_eq, i_j_generator, List.length_range]
    obtain ⟨fs, p, _, hfs, _, _, hflat⟩ := intervalFlows_prefix computer_n gen time r hc hlen
    refine ⟨h1, hle, hprobe, ?_, fs, hfs, ?_⟩
    · rw [print_queue_length_isSome_iff, hnodes]
      exact hprobe
    · intro v hv
      unfold flowLookups at hv
      rw [hflat] at hv
      have hv' : v ∈ i_j_generator computer_n := hperm.subset (List.mem_of_mem_take hv)
      have : v < computer_n := by simpa [i_j_generator] using hv'
      omega

/-- C11. Take a matrix that is N×N and a coordinate list of length N, so that the
dimension check passes, and the program's 50 computers and 30 routers.  If N is
below 80 the naming loops end the program at `nodes.Get (N)`, before any flow
is scheduled or any probe runs.  Whenever the set-up completes, N is at least
80, every node index the probe looks up is below N and the probe completes
on the table of N nodes, and every node index the flow loop looks up in an
interval is below N, whatever the shuffle and `rand()` give.  A set-up on a
matrix without a pair `[i][j]`, `[j][i]` does complete. -/
theorem lookups_after_setup (N now time r : Nat) (M : List (List Bool))
    (coord_array : List (List ℚ)) (w : World) (gen : List Nat)
    (hsq : IsSquare M N) (hcheck : dimensionCheck M coord_array = some N)
    (hnodes : w.nodes.length = N) (hperm : gen.Perm (i_j_generator 50)) :
    (N < 80 → setup 50 30 M coord_array = Except.error (SetupError.missingNode N))
    ∧ (80 ≤ N → (∀ i j, entry M i j = true → entry M j i = false) →
      ∃ s, setup 50 30 M coord_array = Except.ok (N, s) ∧ s.build = buildLinks 50 M)
    ∧ (∀ st, setup 50 30 M coord_array = Except.ok st →
        st.1 = N ∧ 80 ≤ N
        ∧ (∀ v ∈ print_queue_length_lookups, v < N)
        ∧ (print_queue_length now w).isSome = true
        ∧ ∃ fs, intervalFlows 50 gen time r = some fs ∧ ∀ v ∈ flowLookups fs, v < N) := by
  have h := lookups_of_setup 50 30 N now time r M coord_array w gen hsq hcheck
    (by decide) (by decide) hnodes hperm
  refine ⟨?_, ?_, ?_⟩
  · intro hlt
    exact h.1 hlt
  · intro hle hanti
    exact h.2.1 hle hanti
  · intro st hst
    exact h.2.2 st hst

set_option maxRecDepth 100000 in
/-- C11, with the program's 50 computers and 30 routers, the 80×80 matrix whose
only set entry is `[0][50]`, 80 coordinate rows, a table of 80 nodes, the
shuffled vector `49, 48, ..., 0` and `rand()` = 0: the set-up completes with
one link and the flow loop looks up the nodes 49 and 48. -/
theorem lookups_after_setup_witness :
    IsSquare (((List.replicate 50 false) ++ true :: List.replicate 29 false)
        :: List.replicate 79 (List.replicate 80 false)) 80
    ∧ dimensionCheck (((List.replicate 50 false) ++ true :: List.replicate 29 false)
        :: List.replicate 79 (List.replicate 80 false)) (List.replicate 80 [0, 0]) = some 80
    ∧ ((List.range 50).reverse).Perm (i_j_generator 50)
    ∧ intervalFlows 50 (List.range 50).reverse 0 0 = some [⟨48, 49, 0⟩]
    ∧ (∃ st, setup 50 30 (((List.replicate 50 false) ++ true :: List.replicate 29 false)
          :: List.replicate 79 (List.replicate 80 false)) (List.replicate 80 [0, 0])
          = Except.ok st
        ∧ st.2.build.links = [⟨0, 50, LinkClass.computer_router, 0⟩]
        ∧ st.1 = 80 ∧ 80 ≤ 80
        ∧ (∀ v ∈ print_queue_length_lookups, v < 80)
        ∧ (print_queue_length 0 ⟨List.replicate 80 [0], []⟩).isSome = true
        ∧ ∃ fs, intervalFlows 50 (List.range 50).reverse 0 0 = some fs
            ∧ ∀ v ∈ flowLookups fs, v < 80) := by
  have hsq : IsSquare (((List.replicate 50 false) ++ true :: List.replicate 29 false)
      :: List.replicate 79 (List.replicate 80 false)) 80 := by
    refine ⟨by simp, ?_⟩
    intro row hrow
    rcases List.mem_cons.1 hrow with h | h
    · rw [h]
      simp
    · rw [List.eq_of_mem_replicate h]
      simp
  have hcheck : dimensionCheck (((List.replicate 50 false) ++ true :: List.replicate 29 false)
      :: List.replicate 79 (List.replicate 80 false)) (List.replicate 80 [0, 0]) = some 80 := by
    rfl
  have hperm : ((List.range 50).reverse).Perm (i_j_generator 50) := List.reverse_perm _
  have hrun : ∃ st, setup 50 30 (((List.replicate 50 false) ++ true :: List.replicate 29 false)
      :: List.replicate 79 (List.replicate 80 false)) (List.replicate 80 [0, 0]) = Except.ok st
      ∧ st.2.build.links = [⟨0, 50, LinkClass.computer_router, 0⟩] := ⟨_, rfl, rfl⟩
  obtain ⟨st, hst, hlinks⟩ := hrun
  exact ⟨hsq, hcheck, hperm, by rfl, st, hst, hlinks,
    (lookups_after_setup 80 0 0 0 _ _ ⟨List.replicate 80 [0], []⟩ (List.range 50).reverse
      hsq hcheck (by simp) hperm).2.2 st hst⟩

end MatrixTopo
